import Mathlib

/-!
Verification of the seireitranslations-epub extraction-and-normalization
pipeline against its specification.

The development shallowly embeds the Go sources:
- the HTML tree manipulated through goquery is modelled by the inductive
  type `Node` (the markup parser is an external collaborator in the spec;
  we embed the tree it produces and the exact query/mutation operations the
  program performs on it);
- every scraper / processor pass is translated function-by-function from
  `internal/scraper/scraper.go`, the pattern file defining
  `DefaultPatterns`, `internal/processor/html.go` (CleanHTML), the image
  processor (`ProcessImages`, `resolveURL`), `pkg/utils/utils.go`
  (`ReadURLList`) and the chapter-assembly loop of
  `cmd/seireitranslations-epub/app/app.go` (Execute);
- external capabilities (network download, EPUB registration, `url.Parse`)
  are passed in as explicit function parameters, exactly at the interface
  the Go code consumes them.

Debug-only branches of the Go code (guarded by `debugCfg.enabled` /
`logger.Debug`, which only log or write debug files, or try extra
selectors in debug mode) are not part of the embedded production
semantics; the embedding models the program with debug mode off, which is
the configuration the spec describes.
-/

namespace Seirei

/-! ## Characters and Go string primitives -/

/-- Whitespace recognized by Go's `strings.TrimSpace` on the ASCII range
(`unicode.IsSpace` restricted to ASCII, which is the alphabet of the data
this program manipulates). -/
def isSpaceChar (c : Char) : Bool :=
  c = ' ' || c = '\t' || c = '\n' || c = '\x0b' || c = '\x0c' || c = '\r'

/-- Go `strings.TrimSpace` on a list of characters: drop whitespace from
both ends. -/
def goTrim (l : List Char) : List Char :=
  ((l.dropWhile isSpaceChar).reverse.dropWhile isSpaceChar).reverse

/-- Go `strings.TrimSpace`, acting on Lean strings through their character
lists. -/
def trimS (s : String) : String :=
  ⟨goTrim s.toList⟩

/-- Does the character list `s` contain `sub` as a contiguous run?  Model
of Go `strings.Contains`. -/
def containsSub : List Char → List Char → Bool
  | [], sub => sub.isEmpty
  | c :: rest, sub => sub.isPrefixOf (c :: rest) || containsSub rest sub

/-- Go `strings.Contains` on strings. -/
def strContains (s sub : String) : Bool :=
  containsSub s.toList sub.toList

/-- Go `strings.HasPrefix`. -/
def strStartsWith (s p : String) : Bool :=
  p.toList.isPrefixOf s.toList

/-- Go `strings.HasSuffix`. -/
def strEndsWith (s p : String) : Bool :=
  p.toList.reverse.isPrefixOf s.toList.reverse

/-- Replace every occurrence of `pat` (non-empty) in a character list by
`rep`, scanning left to right, with explicit fuel to keep the recursion
structural; one fuel unit per consumed character suffices. -/
def replaceFuel (pat rep : List Char) : Nat → List Char → List Char
  | 0, l => l
  | _ + 1, [] => []
  | fuel + 1, c :: rest =>
    if !pat.isEmpty && pat.isPrefixOf (c :: rest) then
      rep ++ replaceFuel pat rep fuel (rest.drop (pat.length - 1))
    else c :: replaceFuel pat rep fuel rest

/-- Go `strings.ReplaceAll` on character lists. -/
def replaceSub (pat rep : List Char) (l : List Char) : List Char :=
  replaceFuel pat rep l.length l

/-- Go `strings.ReplaceAll` on strings. -/
def strReplace (s pat rep : String) : String :=
  ⟨replaceSub pat.toList rep.toList s.toList⟩

/-- Go `strings.ToLower` (ASCII case folding, which covers the data of
this program). -/
def lowerS (s : String) : String :=
  ⟨s.toList.map Char.toLower⟩

/-- Go `strings.EqualFold` (ASCII case folding). -/
def eqFold (a b : String) : Bool :=
  lowerS a == lowerS b

/-! ## The markup tree

`goquery` exposes the parsed HTML page as a tree of element and text
nodes; the program queries it with CSS selectors and mutates it in place.
We embed the tree as a value and each mutation as a function. -/

/-- A node of the markup tree: an element with a tag name, an ordered
attribute list and child nodes, or a text node. -/
inductive Node where
  | elem (tag : String) (attrs : List (String × String)) (children : List Node)
  | text (s : String)

mutual

/-- Boolean structural equality of nodes. -/
def nodeBEq : Node → Node → Bool
  | .text s, .text t => s == t
  | .elem t1 a1 c1, .elem t2 a2 c2 => t1 == t2 && a1 == a2 && nodeListBEq c1 c2
  | .text _, .elem _ _ _ => false
  | .elem _ _ _, .text _ => false

/-- Boolean structural equality of node lists. -/
def nodeListBEq : List Node → List Node → Bool
  | [], [] => true
  | a :: as, b :: bs => nodeBEq a b && nodeListBEq as bs
  | [], _ :: _ => false
  | _ :: _, [] => false

end

mutual

theorem nodeBEq_iff : ∀ a b, nodeBEq a b = true ↔ a = b
  | .text s, .text t => by simp [nodeBEq]
  | .elem t1 a1 c1, .elem t2 a2 c2 => by
    simp [nodeBEq, nodeListBEq_iff c1 c2, and_assoc]
  | .text _, .elem _ _ _ => by simp [nodeBEq]
  | .elem _ _ _, .text _ => by simp [nodeBEq]

theorem nodeListBEq_iff : ∀ as bs, nodeListBEq as bs = true ↔ as = bs
  | [], [] => by simp [nodeListBEq]
  | a :: as, b :: bs => by
    simp [nodeListBEq, nodeBEq_iff a b, nodeListBEq_iff as bs]
  | [], _ :: _ => by simp [nodeListBEq]
  | _ :: _, [] => by simp [nodeListBEq]

end

instance : DecidableEq Node := fun a b => decidable_of_iff _ (nodeBEq_iff a b)

/-- Structural induction on nodes giving the hypothesis for every child of
an element. -/
theorem Node.inductionOn (P : Node → Prop)
    (ht : ∀ s, P (.text s))
    (he : ∀ t a cs, (∀ c ∈ cs, P c) → P (.elem t a cs)) : ∀ n, P n := by
  intro n
  match n with
  | .text s => exact ht s
  | .elem t a cs =>
    refine he t a cs ?_
    intro c hc
    have : sizeOf c < sizeOf (Node.elem t a cs) := by
      have := List.sizeOf_lt_of_mem hc
      simp only [Node.elem.sizeOf_spec]
      omega
    exact Node.inductionOn P ht he c
termination_by n => sizeOf n

/-- Tag name of a node (empty for text nodes). -/
def tagOf : Node → String
  | .elem t _ _ => t
  | .text _ => ""

/-- Attribute list of a node. -/
def attrsOf : Node → List (String × String)
  | .elem _ a _ => a
  | .text _ => []

/-- Children of a node. -/
def childrenOf : Node → List Node
  | .elem _ _ cs => cs
  | .text _ => []

/-- Is the node an element?  (CSS `*` matches exactly the elements.) -/
def isElem : Node → Bool
  | .elem _ _ _ => true
  | .text _ => false

/-- First value bound to attribute `k` (goquery `Attr`). -/
def getAttr (a : List (String × String)) (k : String) : Option String :=
  (a.find? (fun kv => kv.1 == k)).map (·.2)

/-- goquery `RemoveAttr`: drop every binding of `k`. -/
def removeAttr (a : List (String × String)) (k : String) : List (String × String) :=
  a.filter (fun kv => kv.1 != k)

/-- goquery `SetAttr`: overwrite an existing binding or append a new
one. -/
def setAttr (a : List (String × String)) (k v : String) : List (String × String) :=
  if (a.find? (fun kv => kv.1 == k)).isSome then
    a.map (fun kv => if kv.1 == k then (k, v) else kv)
  else a ++ [(k, v)]

/-- Attribute of a node. -/
def nodeAttr (n : Node) (k : String) : Option String :=
  getAttr (attrsOf n) k

/-- Split a character list on single spaces. -/
def splitOnSpace : List Char → List Char → List (List Char)
  | [], acc => [acc.reverse]
  | c :: rest, acc =>
    if c = ' ' then acc.reverse :: splitOnSpace rest []
    else splitOnSpace rest (c :: acc)

/-- CSS class membership: the `class` attribute split on spaces contains
the class (goquery `HasClass`). -/
def hasClass (n : Node) (c : String) : Bool :=
  match nodeAttr n "class" with
  | some v => (splitOnSpace v.toList []).contains c.toList
  | none => false

/-- CSS attribute-substring test `[k*=v]` on a node. -/
def attrContains (n : Node) (k v : String) : Bool :=
  match nodeAttr n k with
  | some s => strContains s v
  | none => false

mutual

/-- Concatenated text content of a node (goquery `Text`). -/
def textN : Node → String
  | .text s => s
  | .elem _ _ cs => textL cs

/-- Concatenated text content of a node list. -/
def textL : List Node → String
  | [] => ""
  | c :: cs => textN c ++ textL cs

end

/-- Tags serialized without a closing tag (`net/html` renders void
elements self-closed, e.g. img and br). -/
def voidTags : List String := ["br", "img", "hr", "meta", "link", "input"]

/-- Serialize an attribute list. -/
def renderAttrs : List (String × String) → String
  | [] => ""
  | (k, v) :: rest => " " ++ k ++ "=\"" ++ v ++ "\"" ++ renderAttrs rest

mutual

/-- Serialize one node (goquery `OuterHtml` via `net/html` `Render`). -/
def renderN : Node → String
  | .text s => s
  | .elem t a cs =>
    if voidTags.contains t then "<" ++ t ++ renderAttrs a ++ "/>"
    else "<" ++ t ++ renderAttrs a ++ ">" ++ renderL cs ++ "</" ++ t ++ ">"

/-- Serialize a node list. -/
def renderL : List Node → String
  | [] => ""
  | c :: cs => renderN c ++ renderL cs

end

/-- Inner markup of a node (goquery `Html`: the serialized children of the
first node of the selection). -/
def innerHtml (n : Node) : String :=
  renderL (childrenOf n)

mutual

/-- Does predicate `p` hold of some node of the subtree rooted at `n`
(including `n`)? -/
def anyN (p : Node → Bool) : Node → Bool
  | .text s => p (.text s)
  | .elem t a cs => p (.elem t a cs) || anyL p cs

/-- Does predicate `p` hold somewhere in a forest? -/
def anyL (p : Node → Bool) : List Node → Bool
  | [] => false
  | c :: cs => anyN p c || anyL p cs

end

mutual

/-- Number of nodes of the subtree of `n` (`n` included) satisfying
`p`. -/
def cntN (p : Node → Bool) : Node → Nat
  | .text s => if p (.text s) then 1 else 0
  | .elem t a cs => (if p (.elem t a cs) then 1 else 0) + cntL p cs

def cntL (p : Node → Bool) : List Node → Nat
  | [] => 0
  | c :: cs => cntN p c + cntL p cs

end

/-- Does `p` hold of a strict descendant of `n`?  This is
`selection.Find(sel).Length() > 0` for a node-local selector. -/
def anyDesc (p : Node → Bool) (n : Node) : Bool :=
  anyL p (childrenOf n)

/-! ## Paths and selector matching

A path is a list of child indices.  goquery `Find` returns matched
descendants in document order, i.e. pre-order of the tree; we return their
paths. -/

/-- Node reached from `n` by following a path of child indices. -/
def nodeAt : List Nat → Node → Option Node
  | [], n => some n
  | i :: rest, .elem _ _ cs =>
    match cs.get? i with
    | some c => nodeAt rest c
    | none => none
  | _ :: _, .text _ => none

/-- Node reached by a path, defaulting to an empty text node. -/
def nodeAtD (p : List Nat) (n : Node) : Node :=
  (nodeAt p n).getD (.text "")

/-- Ancestor paths of a path, nearest ancestor first, ending with the
root `[]` (goquery `Parents` walks the parent chain up to the root). -/
def ancestorPaths : List Nat → List (List Nat)
  | [] => []
  | x :: rest => (ancestorPaths rest).map (x :: ·) ++ [[]]

mutual

/-- Paths (relative to `n`) of the nodes of `n`'s subtree, `n` included,
that satisfy the node-local predicate `p`, in document (pre-)order. -/
def mpathsN (p : Node → Bool) : Node → List (List Nat)
  | .text s => if p (.text s) then [[]] else []
  | .elem t a cs => (if p (.elem t a cs) then [[]] else []) ++ mpathsL p 0 cs

/-- Paths of matches in a forest, children numbered from `i`. -/
def mpathsL (p : Node → Bool) (i : Nat) : List Node → List (List Nat)
  | [] => []
  | c :: rest => (mpathsN p c).map (i :: ·) ++ mpathsL p (i + 1) rest

end

/-- goquery `doc.Find(sel)` / `selection.Find(sel)` for a node-local
selector: matched strict descendants of `n`, in document order. -/
def findPaths (p : Node → Bool) (n : Node) : List (List Nat) :=
  mpathsL p 0 (childrenOf n)

/-- Membership test used by path-set removal. -/
def stripIdx (i : Nat) (s : List (List Nat)) : List (List Nat) :=
  s.filterMap (fun q =>
    match q with
    | [] => none
    | j :: rest => if j = i then some rest else none)

mutual

/-- Remove from `n` every node whose relative path is in `s` (a node with
path `[]` deletes `n` itself).  This is the net effect of calling goquery
`Remove` on a selection holding the nodes at those paths: each listed node
is detached from its parent, its subtree disappearing with it. -/
def rmPathsN (s : List (List Nat)) (n : Node) : Option Node :=
  if s.contains [] then none
  else
    match n with
    | .text str => some (.text str)
    | .elem t a cs => some (.elem t a (rmPathsL s 0 cs))

/-- Path-set removal over a forest, children numbered from `i`. -/
def rmPathsL (s : List (List Nat)) (i : Nat) : List Node → List Node
  | [] => []
  | c :: rest =>
    (match rmPathsN (stripIdx i s) c with
     | some c2 => [c2]
     | none => []) ++ rmPathsL s (i + 1) rest

end

/-- Remove the matched strict-descendant paths `s` from a document node
(the root itself is never in a `Find` result). -/
def rmPathsDoc (s : List (List Nat)) (n : Node) : Node :=
  match n with
  | .text str => .text str
  | .elem t a cs => .elem t a (rmPathsL s 0 cs)

/-- Remove the single node at path `p` (goquery `First().Remove()`). -/
def removePathN : List Nat → Node → Node
  | [], n => n
  | [i], .elem t a cs => .elem t a (cs.eraseIdx i)
  | _ :: _ :: _, .text s => .text s
  | [_], .text s => .text s
  | i :: rest@(_ :: _), .elem t a cs =>
    .elem t a (cs.mapIdx (fun j c => if j = i then removePathN rest c else c))

/-! ## The chapter-title selector

`ChapterTitleSelector` from the pattern file:
`h4[style*=center]:first-of-type, p[style*=center]:first-of-type,
p>span[style*='800']`.  The `:first-of-type` and `>` parts need sibling
and parent context, so its matcher is threaded through the tree with that
context. -/

/-- Is there no earlier sibling element with the same tag
(`:first-of-type`)? -/
def firstOfType (prev : List Node) (t : String) : Bool :=
  !(prev.any (fun s => isElem s && tagOf s == t))

/-- Does a node match `ChapterTitleSelector`, given the parent's tag and
the earlier siblings? -/
def titleMatch (ptag : String) (prev : List Node) (n : Node) : Bool :=
  match n with
  | .text _ => false
  | .elem t _ _ =>
    (t == "h4" && attrContains n "style" "center" && firstOfType prev "h4")
    || (t == "p" && attrContains n "style" "center" && firstOfType prev "p")
    || (t == "span" && attrContains n "style" "800" && ptag == "p")

mutual

/-- Paths of `ChapterTitleSelector` matches strictly inside `n`, in
document order. -/
def titlePathsN : Node → List (List Nat)
  | .text _ => []
  | .elem t _ cs => titlePathsL t [] 0 cs

/-- Title matches in a forest whose parent has tag `ptag`; `prev` holds
the earlier siblings, children numbered from `i`. -/
def titlePathsL (ptag : String) (prev : List Node) (i : Nat) :
    List Node → List (List Nat)
  | [] => []
  | c :: rest =>
    ((if titleMatch ptag prev c then [[i]] else [])
      ++ (titlePathsN c).map (i :: ·))
    ++ titlePathsL ptag (prev ++ [c]) (i + 1) rest

end

/-! ## Scraper cleanup passes (`internal/scraper/scraper.go`)

Each `doc.Find(...).Each(...)` loop iterates a list of matches computed
before any mutation, in document order, and its per-node decision depends
only on that node's own subtree at visit time.  Because document order
visits ancestors before their descendants, every decision is taken against
the node's original subtree, so each loop is a structural transformation
of the tree. -/

/-- Is this an img element? -/
def isImg (n : Node) : Bool :=
  isElem n && tagOf n == "img"

/-- Tags checked by `removeEmptyElements` (`doc.Find("p, div, span, h1,
h2, h3, h4, h5, h6")`). -/
def emptyCheckTags : List String :=
  ["p", "div", "span", "h1", "h2", "h3", "h4", "h5", "h6"]

mutual

/-- One node under `removeEmptyElements`: an element of the checked tags
with neither trimmed text nor an img descendant is removed. -/
def removeEmptyN : Node → List Node
  | .text s => [.text s]
  | .elem t a cs =>
    if emptyCheckTags.contains t && trimS (textL cs) == "" && !anyL isImg cs then []
    else [.elem t a (removeEmptyL cs)]

/-- `removeEmptyN` over a forest. -/
def removeEmptyL : List Node → List Node
  | [] => []
  | c :: cs => removeEmptyN c ++ removeEmptyL cs

end

/-- `removeEmptyElements`: removes elements without text or images. -/
def removeEmptyElements (d : Node) : Node :=
  match d with
  | .text s => .text s
  | .elem t a cs => .elem t a (removeEmptyL cs)

mutual

/-- One node under the `.sharethis-inline-reaction-buttons` removal. -/
def removeSharethisN : Node → List Node
  | .text s => [.text s]
  | .elem t a cs =>
    if hasClass (.elem t a cs) "sharethis-inline-reaction-buttons" then []
    else [.elem t a (removeSharethisL cs)]

/-- Sharethis removal over a forest. -/
def removeSharethisL : List Node → List Node
  | [] => []
  | c :: cs => removeSharethisN c ++ removeSharethisL cs

end

/-- `Find(".sharethis-inline-reaction-buttons").Remove()`. -/
def removeSharethis (d : Node) : Node :=
  match d with
  | .text s => .text s
  | .elem t a cs => .elem t a (removeSharethisL cs)

/-- The chapter-title half of `removeRedundantElements`: remove the first
`ChapterTitleSelector` match, if any. -/
def removeChapterTitleFirst (d : Node) : Node :=
  match (titlePathsN d).head? with
  | some p => removePathN p d
  | none => d

/-- `removeRedundantElements`: remove the sharethis widgets, then remove
the first `ChapterTitleSelector` match if any. -/
def removeRedundantElements (d : Node) : Node :=
  removeChapterTitleFirst (removeSharethis d)

/-- The decorative-character cleanup of `removeBlogURLEntries`: trim, then
delete em-dash mojibake, dashes, angle brackets, pipes and asterisks, then
trim again. -/
def blogURLCleaned (s : String) : String :=
  let t0 := trimS s
  let t1 := strReplace t0 "â€”" ""
  let t2 := strReplace t1 "-" ""
  let t3 := strReplace t2 ">" ""
  let t4 := strReplace t3 "<" ""
  let t5 := strReplace t4 "|" ""
  let t6 := strReplace t5 "*" ""
  trimS t6

/-- Does `removeBlogURLEntries` delete this node?  It checks `p` and `div`
elements whose cleaned text equals the blog domain, case-insensitively. -/
def isBlogURLElem (n : Node) : Bool :=
  (tagOf n == "p" || tagOf n == "div")
    && isElem n
    && eqFold (blogURLCleaned (textN n)) "seireitranslations.blogspot.com"

mutual

/-- One node under `removeBlogURLEntries`. -/
def removeBlogURLN : Node → List Node
  | .text s => [.text s]
  | .elem t a cs =>
    if isBlogURLElem (.elem t a cs) then []
    else [.elem t a (removeBlogURLL cs)]

/-- Blog-URL removal over a forest. -/
def removeBlogURLL : List Node → List Node
  | [] => []
  | c :: cs => removeBlogURLN c ++ removeBlogURLL cs

end

/-- `removeBlogURLEntries`: removes leftover attribution lines. -/
def removeBlogURLEntries (d : Node) : Node :=
  match d with
  | .text s => .text s
  | .elem t a cs => .elem t a (removeBlogURLL cs)

/-- Case-insensitive `strings.HasPrefix(strings.ToLower(text), "part ")`. -/
def startsWithPart (s : String) : Bool :=
  strStartsWith (lowerS s) "part "

/-- A span matched by `span[style*='font-weight: 800']` or
`span[style*='font-weight:800']`. -/
def partSpanSel (n : Node) : Bool :=
  isElem n && tagOf n == "span"
    && (attrContains n "style" "font-weight: 800"
        || attrContains n "style" "font-weight:800")

/-- First child of the list that is a styled span whose text starts with
"part " (case-insensitively); returns that text.  These are the spans of
`p span[style*=...]` whose immediate parent is the `p` being visited. -/
def firstPartSpanText : List Node → Option String
  | [] => none
  | c :: cs =>
    if partSpanSel c && startsWithPart (textN c) then some (textN c)
    else firstPartSpanText cs

mutual

/-- Pass 1 of `convertPartHeadings`: a `p` whose styled span child starts
with "part " is replaced by `<h3>` holding the span text. -/
def convertPart1N : Node → Node
  | .text s => .text s
  | .elem t a cs =>
    if t == "p" then
      match firstPartSpanText cs with
      | some txt => .elem "h3" [] [.text txt]
      | none => .elem t a (convertPart1L cs)
    else .elem t a (convertPart1L cs)

/-- Pass 1 over a forest. -/
def convertPart1L : List Node → List Node
  | [] => []
  | c :: cs => convertPart1N c :: convertPart1L cs

end

/-- First `b` child whose text starts with "part ", returning the text
(`div > b` matches of `convertPartHeadings`). -/
def firstPartBText : List Node → Option String
  | [] => none
  | c :: cs =>
    if isElem c && tagOf c == "b" && startsWithPart (textN c) then some (textN c)
    else firstPartBText cs

mutual

/-- Pass 2 of `convertPartHeadings`: `<div><b>Part X</b></div>` becomes
`<h3>Part X</h3>` (the matched b's parent div is replaced). -/
def convertPart2N : Node → Node
  | .text s => .text s
  | .elem t a cs =>
    if t == "div" then
      match firstPartBText cs with
      | some txt => .elem "h3" [] [.text txt]
      | none => .elem t a (convertPart2L cs)
    else .elem t a (convertPart2L cs)

/-- Pass 2 over a forest. -/
def convertPart2L : List Node → List Node
  | [] => []
  | c :: cs => convertPart2N c :: convertPart2L cs

end

/-- First `span` child containing a `b` child whose text starts with
"part ", returning that text (`p > span > b` matches). -/
def firstPartSpanBText : List Node → Option String
  | [] => none
  | c :: cs =>
    if isElem c && tagOf c == "span" then
      match firstPartBText (childrenOf c) with
      | some txt => some txt
      | none => firstPartSpanBText cs
    else firstPartSpanBText cs

mutual

/-- Pass 3 of `convertPartHeadings`: `<p><span><b>Part X</b></span></p>`
becomes `<h3>Part X</h3>` (the b's grandparent p is replaced). -/
def convertPart3N : Node → Node
  | .text s => .text s
  | .elem t a cs =>
    if t == "p" then
      match firstPartSpanBText cs with
      | some txt => .elem "h3" [] [.text txt]
      | none => .elem t a (convertPart3L cs)
    else .elem t a (convertPart3L cs)

/-- Pass 3 over a forest. -/
def convertPart3L : List Node → List Node
  | [] => []
  | c :: cs => convertPart3N c :: convertPart3L cs

end

/-- `convertPartHeadings`: the three conversion loops, in program
order. -/
def convertPartHeadings (d : Node) : Node :=
  convertPart3N (convertPart2N (convertPart1N d))

/-- `p[style*='center'], div[style*='center']`, the selector of the first
half of `processNavigationElements`. -/
def centeredLoose (n : Node) : Bool :=
  isElem n && (tagOf n == "p" || tagOf n == "div")
    && attrContains n "style" "center"

/-- Is this centered element removed by the keyword half of
`processNavigationElements`?  Its lowercased inner markup mentions Patreon
or two of previous / next / table of contents. -/
def navRemovable (n : Node) : Bool :=
  centeredLoose n &&
    (let h := lowerS (innerHtml n)
     strContains h "patreon"
       || (strContains h "previous" && strContains h "next")
       || (strContains h "previous" && strContains h "table of contents")
       || (strContains h "next" && strContains h "table of contents"))

mutual

/-- One node under the keyword-based navigation/Patreon removal. -/
def removeNavN : Node → List Node
  | .text s => [.text s]
  | .elem t a cs =>
    if navRemovable (.elem t a cs) then []
    else [.elem t a (removeNavL cs)]

/-- Keyword-based removal over a forest. -/
def removeNavL : List Node → List Node
  | [] => []
  | c :: cs => removeNavN c ++ removeNavL cs

end

/-- The keyword-based first half of `processNavigationElements`. -/
def removeNavKeyword (d : Node) : Node :=
  match d with
  | .text s => .text s
  | .elem t a cs => .elem t a (removeNavL cs)

/-- `p[style*='text-align: center']`, the selector of the last-three
removal. -/
def centeredStrict (n : Node) : Bool :=
  isElem n && tagOf n == "p" && attrContains n "style" "text-align: center"

/-- The second half of `processNavigationElements`: if at least three
`p[style*='text-align: center']` remain, remove the last three in document
order (`Slice(n-3, n)` of the find result, then `Remove`). -/
def removeLastThreeCentered (d : Node) : Node :=
  let ms := findPaths centeredStrict d
  if ms.length ≥ 3 then rmPathsDoc (ms.drop (ms.length - 3)) d
  else d

/-- `processNavigationElements`: keyword removal, then the last-three
heuristic. -/
def processNavigationElements (d : Node) : Node :=
  removeLastThreeCentered (removeNavKeyword d)

/-- Classes whose divs `convertDivsToParagraphs` skips. -/
def divSkipClasses : List String :=
  ["sharethis-inline-reaction-buttons", "post-header", "post-footer", "post-bottom"]

/-- Does `convertDivsToParagraphs` skip this div because of its class? -/
def divClassSkip (n : Node) : Bool :=
  divSkipClasses.any (hasClass n)

/-- Is a node a heading element (`h1` .. `h6`)? -/
def isHeading (n : Node) : Bool :=
  isElem n && ["h1", "h2", "h3", "h4", "h5", "h6"].contains (tagOf n)

mutual

/-- One node under `convertDivsToParagraphs`: a div holding just a line
break is removed; a div with text but no div/heading/paragraph descendant
becomes a `p` with the same inner markup (the replacement re-parses the
serialized children, reproducing them). -/
def convertDivsN : Node → List Node
  | .text s => [.text s]
  | .elem t a cs =>
    if t == "div" && !divClassSkip (.elem t a cs) then
      let ih := renderL cs
      if trimS ih == "<br>" || trimS ih == "<br/>" || trimS ih == "<br />" then []
      else if trimS (textL cs) != ""
          && cntL (fun n => isElem n && tagOf n == "div") cs == 0
          && cntL isHeading cs == 0
          && cntL (fun n => isElem n && tagOf n == "p") cs == 0 then
        [.elem "p" [] cs]
      else [.elem t a (convertDivsL cs)]
    else [.elem t a (convertDivsL cs)]

/-- Div conversion over a forest. -/
def convertDivsL : List Node → List Node
  | [] => []
  | c :: cs => convertDivsN c ++ convertDivsL cs

end

/-- `convertDivsToParagraphs`. -/
def convertDivsToParagraphs (d : Node) : Node :=
  match d with
  | .text s => .text s
  | .elem t a cs => .elem t a (convertDivsL cs)

/-- The cleanup passes of `Scraper.ExtractContent`, in the order the code
runs them after pattern extraction: empty-element removal first, then
redundant-element removal, blog-URL removal, Part-heading promotion,
navigation processing, div conversion. -/
def extractContentPasses (d : Node) : Node :=
  convertDivsToParagraphs
    (processNavigationElements
      (convertPartHeadings
        (removeBlogURLEntries
          (removeRedundantElements
            (removeEmptyElements d)))))

/-! ## `CleanHTML` (`internal/processor/html.go`)

The tree-level phase of `CleanHTML`: sharethis removal, inline-style
stripping on non-images, other presentation-attribute stripping on
non-images, empty-paragraph removal.  The final whitespace regexes act on
the serialized string and touch no attribute. -/

mutual

/-- `Find("[style]")` pass of `CleanHTML`: every element except `img`
loses its `style` attribute. -/
def stripStyleN : Node → Node
  | .text s => .text s
  | .elem t a cs =>
    .elem t (if t == "img" then a else removeAttr a "style") (stripStyleL cs)

/-- Style stripping over a forest. -/
def stripStyleL : List Node → List Node
  | [] => []
  | c :: cs => stripStyleN c :: stripStyleL cs

end

/-- The attributes removed by the `Find("*")` pass of `CleanHTML`. -/
def presentationAttrs : List String :=
  ["align", "width", "height", "border", "bgcolor", "color"]

/-- Remove all the presentation attributes from an attribute list. -/
def removePresentation (a : List (String × String)) : List (String × String) :=
  removeAttr (removeAttr (removeAttr (removeAttr (removeAttr (removeAttr a
    "align") "width") "height") "border") "bgcolor") "color"

mutual

/-- `Find("*")` pass of `CleanHTML`: every element except `img` loses
align, width, height, border, bgcolor and color. -/
def stripAttrsN : Node → Node
  | .text s => .text s
  | .elem t a cs =>
    .elem t (if t == "img" then a else removePresentation a) (stripAttrsL cs)

/-- Presentation-attribute stripping over a forest. -/
def stripAttrsL : List Node → List Node
  | [] => []
  | c :: cs => stripAttrsN c :: stripAttrsL cs

end

mutual

/-- Empty-paragraph removal of `CleanHTML`: a `p` whose trimmed inner
markup is empty or a bare non-breaking-space entity is removed. -/
def removeEmptyPsN : Node → List Node
  | .text s => [.text s]
  | .elem t a cs =>
    if t == "p" && (trimS (renderL cs) == "" || trimS (renderL cs) == "&nbsp;") then []
    else [.elem t a (removeEmptyPsL cs)]

/-- Empty-paragraph removal over a forest. -/
def removeEmptyPsL : List Node → List Node
  | [] => []
  | c :: cs => removeEmptyPsN c ++ removeEmptyPsL cs

end

/-- Empty-paragraph removal at document level. -/
def removeEmptyParagraphs (d : Node) : Node :=
  match d with
  | .text s => .text s
  | .elem t a cs => .elem t a (removeEmptyPsL cs)

/-- Style stripping at document level. -/
def stripStyles (d : Node) : Node :=
  match d with
  | .text s => .text s
  | .elem t a cs => .elem t a (stripStyleL cs)

/-- Presentation-attribute stripping at document level. -/
def stripAttrs (d : Node) : Node :=
  match d with
  | .text s => .text s
  | .elem t a cs => .elem t a (stripAttrsL cs)

/-- The tree phase of `CleanHTML`, in program order. -/
def cleanHTMLDom (d : Node) : Node :=
  removeEmptyParagraphs (stripAttrs (stripStyles (removeSharethis d)))

/-! ## `resolveURL` and `ProcessImages` (the image processor)

`url.Parse` and `ResolveReference` belong to the Go standard library, and
download / save / EPUB registration are external capabilities; all are
passed in as parameters at exactly the interface the code consumes. -/

/-- `resolveURL`: absolute (`http://` / `https://`) sources are returned
unchanged; otherwise both URLs are parsed and the source is resolved
against the page URL, any parse failure returning the source unchanged. -/
def resolveURL {U : Type} (parseUrl : String → Option U)
    (resolveRef : U → U → String) (imgSrc pageURL : String) : String :=
  if !(strStartsWith imgSrc "http://" || strStartsWith imgSrc "https://") then
    match parseUrl pageURL with
    | none => imgSrc
    | some baseURL =>
      match parseUrl imgSrc with
      | none => imgSrc
      | some relativeURL => resolveRef baseURL relativeURL
  else imgSrc

/-- Go `filepath.Ext`: the suffix of the final path element starting at
its last dot, empty if there is none. -/
def goExt (s : String) : String :=
  extRev s.toList.reverse []
where
  /-- Scan the path backwards, accumulating the suffix seen so far. -/
  extRev : List Char → List Char → String
  | [], _ => ""
  | c :: rest, acc =>
    if c = '/' then ""
    else if c = '.' then ⟨c :: acc⟩
    else extRev rest (c :: acc)

/-- The external capabilities consumed by the image processor:
`Downloader.DownloadFile`, `Downloader.SaveToFile`, `epub.AddImage`,
`url.Parse`, `URL.ResolveReference`, and the `time.Now().UnixNano()`
timestamp used in generated filenames.  `none` models the error return of
the corresponding Go call. -/
structure ImgEnv (U : Type) where
  downloadFile : String → String → Option (List Nat)
  saveToFile : List Nat → String → Option String
  addImage : String → String → Option String
  parseUrl : String → Option U
  resolveRef : U → U → String
  nowNano : Nat

/-- The attribute rewrite applied to a processed image: set `src` to the
internal EPUB path, drop sizing attributes, set the responsive style. -/
def imgRewrite (internal : String) (n : Node) : Node :=
  match n with
  | .text s => .text s
  | .elem t a cs =>
    let a1 := setAttr a "src" internal
    let a2 := removeAttr (removeAttr (removeAttr (removeAttr (removeAttr a1
      "border") "data-original-height") "data-original-width") "height") "width"
    .elem t (setAttr a2 "style" "max-width: 100%; height: auto;") cs

/-- First strict-descendant img of a forest, in document order. -/
def firstImgIn (cs : List Node) : Option Node :=
  match mpathsL isImg 0 cs with
  | [] => none
  | p :: _ => nodeAt p (.elem "#forest" [] cs)

/-- Does this link target look like an image (`strings.Contains` on the
four known extensions)? -/
def looksLikeImageURL (s : String) : Bool :=
  strContains s ".jpg" || strContains s ".jpeg"
    || strContains s ".png" || strContains s ".gif"

/-- The full-size-image branch of `ProcessImages` for one `a` element with
an img descendant: `none` means the code path took an early `return` and
the anchor stays in the tree; `some img` is the rewritten image that
replaces the anchor. -/
def linkReplacement {U : Type} (env : ImgEnv U) (pageURL : String) (i : Nat)
    (attrs : List (String × String)) (cs : List Node) : Option Node :=
  match getAttr attrs "href" with
  | none => none
  | some href =>
    if href == "" then none
    else if !looksLikeImageURL href then none
    else
      let fullImgSrc := resolveURL env.parseUrl env.resolveRef href pageURL
      let imgExt := if goExt fullImgSrc == "" then ".jpg" else goExt fullImgSrc
      let imgFilename :=
        "fullimg_" ++ toString env.nowNano ++ "_" ++ toString i ++ imgExt
      match env.downloadFile fullImgSrc imgFilename with
      | none => none
      | some imgData =>
        if imgData.length == 0 then none
        else
          match env.saveToFile imgData imgFilename with
          | none => none
          | some tempImgPath =>
            match env.addImage tempImgPath imgFilename with
            | none => none
            | some internalImgPath =>
              (firstImgIn cs).map (imgRewrite internalImgPath)

mutual

/-- The `Find("a")` loop of `ProcessImages`.  The counter `i` numbers all
anchors of the original document in document order, as the precomputed
`Each` index does; a replaced anchor's enclosed anchors keep their indices
but their processing acts on detached nodes and leaves no trace in the
document. -/
def processLinksN {U : Type} (env : ImgEnv U) (pageURL : String) (i : Nat) :
    Node → List Node × Nat
  | .text s => ([.text s], i)
  | .elem t a cs =>
    if t == "a" && anyL isImg cs then
      match linkReplacement env pageURL i a cs with
      | some img => ([img], i + 1 + cntL (fun n => isElem n && tagOf n == "a") cs)
      | none =>
        let r := processLinksL env pageURL (i + 1) cs
        ([.elem t a r.1], r.2)
    else
      let hasA := tagOf (.elem t a cs) == "a"
      let r := processLinksL env pageURL (if hasA then i + 1 else i) cs
      ([.elem t a r.1], r.2)

/-- The anchor loop over a forest. -/
def processLinksL {U : Type} (env : ImgEnv U) (pageURL : String) (i : Nat) :
    List Node → List Node × Nat
  | [] => ([], i)
  | c :: cs =>
    let r := processLinksN env pageURL i c
    let r2 := processLinksL env pageURL r.2 cs
    (r.1 ++ r2.1, r2.2)

end

/-- The remaining-image step of `ProcessImages` for one img element:
early `return`s leave the node unchanged. -/
def imgStep {U : Type} (env : ImgEnv U) (pageURL : String) (i : Nat)
    (n : Node) : Node :=
  let src := (nodeAttr n "src").getD ""
  if strStartsWith src "../" then n
  else
    match nodeAttr n "src" with
    | none => n
    | some imgSrc0 =>
      let imgSrc := resolveURL env.parseUrl env.resolveRef imgSrc0 pageURL
      if imgSrc == "" then n
      else
        let imgExt := if goExt imgSrc == "" then ".jpg" else goExt imgSrc
        let imgFilename :=
          "image_" ++ toString env.nowNano ++ "_" ++ toString i ++ imgExt
        match env.downloadFile imgSrc imgFilename with
        | none => n
        | some imgData =>
          if imgData.length == 0 then n
          else
            match env.saveToFile imgData imgFilename with
            | none => n
            | some tempImgPath =>
              match env.addImage tempImgPath imgFilename with
              | none => n
              | some internalImgPath => imgRewrite internalImgPath n

mutual

/-- The `Find("img")` loop of `ProcessImages`; `i` numbers the images in
document order. -/
def processImgsN {U : Type} (env : ImgEnv U) (pageURL : String) (i : Nat) :
    Node → Node × Nat
  | .text s => (.text s, i)
  | .elem t a cs =>
    if isImg (.elem t a cs) then
      let n2 := imgStep env pageURL i (.elem t a cs)
      let r := processImgsL env pageURL (i + 1) cs
      (.elem (tagOf n2) (attrsOf n2) r.1, r.2)
    else
      let r := processImgsL env pageURL i cs
      (.elem t a r.1, r.2)

/-- The image loop over a forest. -/
def processImgsL {U : Type} (env : ImgEnv U) (pageURL : String) (i : Nat) :
    List Node → List Node × Nat
  | [] => ([], i)
  | c :: cs =>
    let r := processImgsN env pageURL i c
    let r2 := processImgsL env pageURL r.2 cs
    (r.1 :: r2.1, r2.2)

end

/-- `ProcessImages`: the full-size-link loop, then the remaining-image
loop, at document level. -/
def processImages {U : Type} (env : ImgEnv U) (pageURL : String) (d : Node) :
    Node :=
  match d with
  | .text s => .text s
  | .elem t a cs =>
    let afterLinks := (processLinksL env pageURL 0 cs).1
    .elem t a (processImgsL env pageURL 0 afterLinks).1

/-! ## The extraction patterns (`DefaultPatterns`)

The pattern file defines `AdvancedPattern` and `FallbackPattern`; an
`ExtractionPattern` carries a selector string and an `Extract` function.
In the embedding the selector strings are compiled into the matchers the
extract functions use, as cascadia compiles them in Go. -/

/-- The source text of `ChapterTitleSelector`. -/
def chapterTitleSelectorSrc : String :=
  "h4[style*=center]:first-of-type, p[style*=center]:first-of-type, p>span[style*='800']"

/-- `isSameElement`: two handles denote the same element when their node
type, tag name and inner markup agree (content-based structural identity,
needed across the clone boundary). -/
def isSameElement (a b : Node) : Bool :=
  isElem a && isElem b && tagOf a == tagOf b && innerHtml a == innerHtml b

/-- Is this a div with the `post-body` or `post-content` class? -/
def isPostBodyDiv (n : Node) : Bool :=
  isElem n && tagOf n == "div"
    && (hasClass n "post-body" || hasClass n "post-content")

/-- First ancestor (nearest first, as `Parents` iterates) of the node at
path `p` satisfying `pred`. -/
def firstAncestor (d : Node) (p : List Nat) (pred : Node → Bool) :
    Option (List Nat) :=
  (ancestorPaths p).find? (fun q =>
    match nodeAt q d with
    | some n => pred n
    | none => false)

/-- The container search of `AdvancedPattern`: nearest ancestor div with
`post-body`/`post-content`, else nearest ancestor div, else the document
body. -/
def containerOf (d : Node) (tp : List Nat) : Option (List Nat) :=
  match firstAncestor d tp isPostBodyDiv with
  | some q => some q
  | none =>
    match firstAncestor d tp (fun n => isElem n && tagOf n == "div") with
    | some q => some q
    | none => (findPaths (fun n => isElem n && tagOf n == "body") d).head?

/-- Does the chapter-title selector match somewhere strictly inside the
node (`el.Find(selector).Length() > 0`)? -/
def hasTitleInside (n : Node) : Bool :=
  !(titlePathsN n).isEmpty

/-- Is `el` (by structural identity) one of the ancestors of the cloned
title at path `ctp` inside `clone`? -/
def isParentOfTitle (clone : Node) (ctp : List Nat) (el : Node) : Bool :=
  (ancestorPaths ctp).any (fun ap => isSameElement (nodeAtD ap clone) el)

/-- The element-deletion step of `AdvancedPattern`: among the elements
before the title index, delete those that are not the title, do not
contain a title match, and are not an ancestor of the title. -/
def deleteBeforeTitle (clone : Node) (ctp : List Nat)
    (allElements : List (List Nat)) (titleIndex : Nat) : Node :=
  let clonedTitle := nodeAtD ctp clone
  let toRemove := (allElements.take titleIndex).filter (fun p =>
    let el := nodeAtD p clone
    !(isSameElement el clonedTitle || hasTitleInside el
      || isParentOfTitle clone ctp el))
  rmPathsDoc toRemove clone

/-- `AdvancedPattern.Extract` (debug mode off): find the title element,
find its container, clone the container, relocate the title in the clone
by structural identity among all its elements, delete everything before
it, and return the container's remaining markup; every failure reports
`found = false`. -/
def advancedExtract (doc : Node) : String × Bool :=
  match (titlePathsN doc).head? with
  | none => ("", false)
  | some tp =>
    match containerOf doc tp with
    | none => ("", false)
    | some cp =>
      let parentClone := nodeAtD cp doc
      match (titlePathsN parentClone).head? with
      | none => ("", false)
      | some ctp =>
        let clonedTitle := nodeAtD ctp parentClone
        let allElements := findPaths isElem parentClone
        match allElements.findIdx?
            (fun p => isSameElement (nodeAtD p parentClone) clonedTitle) with
        | none => ("", false)
        | some titleIndex =>
          (innerHtml (deleteBeforeTitle parentClone ctp allElements titleIndex),
            true)

/-- `FallbackPattern.Extract`: take the first `.post-body` container's
inner markup, remove `.post-header`, `.post-footer` and `.post-bottom`
sub-containers, and report success whenever the container exists.  The
Go code re-parses the serialized container; serialization followed by
parsing reproduces the subtree, so the embedding works on the children
directly. -/
def fallbackExtract (doc : Node) : String × Bool :=
  match (findPaths (fun n => hasClass n "post-body") doc).head? with
  | none => ("", false)
  | some p =>
    let mainContent := nodeAtD p doc
    let mainDoc : Node := .elem "#document" [] (childrenOf mainContent)
    let cleaned := rmPathsDoc
      (findPaths (fun n =>
        hasClass n "post-header" || hasClass n "post-footer"
          || hasClass n "post-bottom") mainDoc) mainDoc
    (innerHtml cleaned, true)

/-- `ExtractionPattern`: a named strategy with a selector string and an
extract function taking the document, the selector, the page URL and the
input line number. -/
structure ExtractionPattern where
  name : String
  description : String
  selector : String
  extract : Node → String → String → Nat → String × Bool

/-- The first entry of `DefaultPatterns`. -/
def advancedPattern : ExtractionPattern :=
  { name := "AdvancedPattern",
    description := "Advanced selector matching h4, p, or span with style",
    selector := chapterTitleSelectorSrc,
    extract := fun doc _ _ _ => advancedExtract doc }

/-- The second entry of `DefaultPatterns`. -/
def fallbackPattern : ExtractionPattern :=
  { name := "FallbackPattern",
    description := "Extract main content as fallback",
    selector := ".post-body",
    extract := fun doc _ _ _ => fallbackExtract doc }

/-- `DefaultPatterns`: the advanced pattern first, the fallback last. -/
def defaultPatterns : List ExtractionPattern :=
  [advancedPattern, fallbackPattern]

/-- The strategy loop of `extractContentWithPatterns`: try each pattern in
order, stop at the first `found = true`; `none` is the "could not find
content in the blog post" error. -/
def extractFirst (patterns : List ExtractionPattern) (doc : Node)
    (pageURL : String) (lineNum : Nat) : Option String :=
  match patterns with
  | [] => none
  | p :: rest =>
    let r := p.extract doc p.selector pageURL lineNum
    if r.2 then some r.1 else extractFirst rest doc pageURL lineNum

/-! ## The chapter-assembly loop (`app.Execute`)

The loop keeps at most one open chapter; a `Chapter` accumulates appended
fragments in a string builder, and `HasContent` asks whether the builder
is non-empty.  We keep the list of appended fragments; the builder's
content is their concatenation. -/

/-- A chapter under assembly: its declared title and the fragments
appended so far, in arrival order. -/
structure Chapter where
  title : String
  frags : List String
deriving DecidableEq

/-- `Chapter.GetContent`: the accumulated builder content. -/
def Chapter.getContent (c : Chapter) : String :=
  String.join c.frags

/-- `Chapter.HasContent`: `Content.Len() > 0`. -/
def Chapter.hasContent (c : Chapter) : Bool :=
  c.getContent.length > 0

/-- One iteration of the URL loop of `Execute`, for an entry that was
fetched, extracted and normalized successfully: continue the open chapter
on a matching title, otherwise emit the open chapter (if it has content)
and open a new one. -/
def assembleStep (st : Option Chapter × List Chapter) (e : String × String) :
    Option Chapter × List Chapter :=
  match st.1 with
  | some c =>
    if e.1 = c.title then (some ⟨c.title, c.frags ++ [e.2]⟩, st.2)
    else
      (some ⟨e.1, [e.2]⟩, st.2 ++ if c.hasContent then [c] else [])
  | none => (some ⟨e.1, [e.2]⟩, st.2)

/-- The chapter assembly of `Execute` over the stream of successfully
processed `(declared title, normalized fragment)` pairs: the loop,
followed by the final flush of the last open chapter.  The returned list
holds the chapters handed to the EPUB generator, in emission order. -/
def assembleChapters (entries : List (String × String)) : List Chapter :=
  let st := entries.foldl assembleStep (none, [])
  st.2 ++
    match st.1 with
    | some c => if c.hasContent then [c] else []
    | none => []

/-! ## `ReadURLList` (`pkg/utils/utils.go`)

The per-line parsing of the input list: trim, skip blank lines, split on
`::`, skip lines that do not give exactly two fields, trim both fields. -/

/-- A parsed input record. -/
structure URLEntry where
  title : List Char
  url : List Char
deriving DecidableEq

/-- Prepend a character to the first piece of a split result. -/
def consHead (c : Char) : List (List Char) → List (List Char)
  | [] => [[c]]
  | p :: ps => (c :: p) :: ps

/-- Go `strings.Split(s, "::")`: split on each leftmost occurrence of the
two-colon separator. -/
def splitOnColons : List Char → List (List Char)
  | [] => [[]]
  | [c] => [[c]]
  | c1 :: c2 :: rest =>
    if c1 = ':' ∧ c2 = ':' then [] :: splitOnColons rest
    else consHead c1 (splitOnColons (c2 :: rest))

/-- One iteration of the `ReadURLList` line loop: `none` when the line is
blank or malformed (skipped), `some` for a parsed entry with both fields
trimmed. -/
def parseLine (line : List Char) : Option URLEntry :=
  let l := goTrim line
  if l = [] then none
  else
    match splitOnColons l with
    | [a, b] => some ⟨goTrim a, goTrim b⟩
    | _ => none

/-- Serialization of a record in the documented input format
`Title::URL`. -/
def serializeRecord (r : URLEntry) : List Char :=
  r.title ++ [':', ':'] ++ r.url

/-! # Theorems -/

/-! ## String lemmas for the input-format round trip -/

theorem containsSub_iff_infix (s sub : List Char) :
    containsSub s sub = true ↔ sub <:+: s := by
  induction s with
  | nil => simp [containsSub, List.isEmpty_iff, List.infix_nil]
  | cons c rest ih =>
    simp [containsSub, List.isPrefixOf_iff_prefix, ih, List.infix_cons_iff]

theorem containsSub_false_mono {s2 s sub : List Char} (h : s2 <:+: s)
    (hs : containsSub s sub = false) : containsSub s2 sub = false := by
  by_contra hcon
  rw [Bool.not_eq_false, containsSub_iff_infix] at hcon
  rw [← Bool.not_eq_true, containsSub_iff_infix] at hs
  exact hs (hcon.trans h)

theorem getLast?_of_suffix {A t : List Char} (h : A <:+ t) (hne : A ≠ []) :
    A.getLast? = t.getLast? := by
  obtain ⟨pre, rfl⟩ := h
  rw [List.getLast?_append]
  cases hA : A.getLast? with
  | none => exact absurd (List.getLast?_eq_none_iff.mp hA) hne
  | some x => rfl

theorem splitOnColons_no_sep (B : List Char)
    (h : containsSub B [':', ':'] = false) : splitOnColons B = [B] := by
  induction B with
  | nil => rfl
  | cons c rest ih =>
    cases rest with
    | nil => rfl
    | cons c2 r2 =>
      simp only [containsSub, Bool.or_eq_false_iff] at h
      have hrest : containsSub (c2 :: r2) [':', ':'] = false := by
        simp only [containsSub, Bool.or_eq_false_iff]
        exact h.2
      have hcc : ¬(c = ':' ∧ c2 = ':') := by
        rintro ⟨rfl, rfl⟩
        simp [List.isPrefixOf] at h
      rw [show splitOnColons (c :: c2 :: r2)
          = if c = ':' ∧ c2 = ':' then [] :: splitOnColons r2
            else consHead c (splitOnColons (c2 :: r2)) from rfl]
      rw [if_neg hcc, ih hrest]
      rfl

theorem splitOnColons_append_sep (A B : List Char)
    (hA : containsSub A [':', ':'] = false) (hlast : A.getLast? ≠ some ':') :
    splitOnColons (A ++ ':' :: ':' :: B) = A :: splitOnColons B := by
  induction A with
  | nil =>
    rw [List.nil_append,
      show splitOnColons (':' :: ':' :: B)
        = if (':' : Char) = ':' ∧ (':' : Char) = ':' then [] :: splitOnColons B
          else consHead ':' (splitOnColons (':' :: B)) from rfl,
      if_pos ⟨rfl, rfl⟩]
  | cons c A2 ih =>
    cases A2 with
    | nil =>
      have hc : ¬(c = ':') := by
        intro hc
        exact hlast (by simp [hc])
      rw [show ((c :: [] : List Char) ++ ':' :: ':' :: B)
          = c :: ':' :: ':' :: B from rfl]
      rw [show splitOnColons (c :: ':' :: ':' :: B)
          = if c = ':' ∧ (':' : Char) = ':' then [] :: splitOnColons (':' :: B)
            else consHead c (splitOnColons (':' :: ':' :: B)) from rfl]
      rw [if_neg (fun hcc => hc hcc.1)]
      rw [show splitOnColons (':' :: ':' :: B)
          = if (':' : Char) = ':' ∧ (':' : Char) = ':' then [] :: splitOnColons B
            else consHead ':' (splitOnColons (':' :: B)) from rfl,
        if_pos ⟨rfl, rfl⟩]
      rfl
    | cons c2 A3 =>
      simp only [containsSub, Bool.or_eq_false_iff] at hA
      have hArest : containsSub (c2 :: A3) [':', ':'] = false := by
        simp only [containsSub, Bool.or_eq_false_iff]
        exact hA.2
      have hcc : ¬(c = ':' ∧ c2 = ':') := by
        rintro ⟨rfl, rfl⟩
        simp [List.isPrefixOf] at hA
      have hlast2 : (c2 :: A3).getLast? ≠ some ':' := by
        rwa [List.getLast?_cons_cons] at hlast
      rw [show ((c :: c2 :: A3) ++ ':' :: ':' :: B)
          = c :: c2 :: (A3 ++ ':' :: ':' :: B) from rfl]
      rw [show splitOnColons (c :: c2 :: (A3 ++ ':' :: ':' :: B))
          = if c = ':' ∧ c2 = ':'
              then [] :: splitOnColons (A3 ++ ':' :: ':' :: B)
            else consHead c (splitOnColons (c2 :: (A3 ++ ':' :: ':' :: B)))
          from rfl]
      rw [if_neg hcc,
        show (c2 :: (A3 ++ ':' :: ':' :: B)) = (c2 :: A3) ++ ':' :: ':' :: B
          from rfl,
        ih hArest hlast2]
      rfl

theorem rdropWhile_append_of_ne_nil {α : Type} {p : α → Bool} {X Y : List α}
    (h : List.rdropWhile p Y ≠ []) :
    List.rdropWhile p (X ++ Y) = X ++ List.rdropWhile p Y := by
  unfold List.rdropWhile at h ⊢
  rw [List.reverse_append, List.dropWhile_append]
  have hne : ¬(List.dropWhile p Y.reverse).isEmpty = true := by
    intro hempty
    rw [List.isEmpty_iff] at hempty
    simp [hempty] at h
  rw [if_neg hne, List.reverse_append, List.reverse_reverse]

theorem head_not_of_dropWhile_eq_cons {α : Type} {p : α → Bool} {l : List α}
    {d : α} {ds : List α} (h : List.dropWhile p l = d :: ds) : p d = false := by
  induction l with
  | nil => simp [List.dropWhile] at h
  | cons x xs ih =>
    rw [List.dropWhile_cons] at h
    by_cases hx : p x = true
    · rw [if_pos hx] at h
      exact ih h
    · rw [if_neg hx] at h
      cases h
      simpa using hx

theorem dropWhile_rdropWhile_comm {α : Type} (p : α → Bool) (l : List α) :
    List.dropWhile p (List.rdropWhile p l) =
      List.rdropWhile p (List.dropWhile p l) := by
  cases hd : List.dropWhile p l with
  | nil =>
    have hall : ∀ x ∈ l, p x = true := List.dropWhile_eq_nil_iff.mp hd
    have hr : List.rdropWhile p l = [] := List.rdropWhile_eq_nil_iff.mpr hall
    simp [hr]
  | cons d ds =>
    have hl : l.takeWhile p ++ (d :: ds) = l := by
      rw [← hd, List.takeWhile_append_dropWhile]
    have hdp : p d = false := head_not_of_dropWhile_eq_cons hd
    have h2 : List.rdropWhile p (d :: ds) ≠ [] := by
      rw [Ne, List.rdropWhile_eq_nil_iff]
      push_neg
      exact ⟨d, by simp, by simp [hdp]⟩
    have h1 : List.rdropWhile p l
        = l.takeWhile p ++ List.rdropWhile p (d :: ds) := by
      conv_lhs => rw [← hl]
      exact rdropWhile_append_of_ne_nil h2
    have hdall : List.dropWhile p (l.takeWhile p) = [] :=
      List.dropWhile_eq_nil_iff.mpr (fun x hx => List.mem_takeWhile_imp hx)
    have hhead : ∃ W, List.rdropWhile p (d :: ds) = d :: W := by
      obtain ⟨suf, hsuf⟩ := List.rdropWhile_prefix p (d :: ds)
      cases hrd : List.rdropWhile p (d :: ds) with
      | nil => exact absurd hrd h2
      | cons e W =>
        rw [hrd] at hsuf
        cases hsuf
        exact ⟨W, rfl⟩
    obtain ⟨W, hW⟩ := hhead
    rw [h1, List.dropWhile_append, hdall]
    simp only [List.isEmpty_nil, if_pos]
    rw [hW, List.dropWhile_cons, if_neg (by simp [hdp])]

theorem goTrim_eq_rdrop (l : List Char) :
    goTrim l = List.rdropWhile isSpaceChar (l.dropWhile isSpaceChar) := rfl

theorem goTrim_dropWhile (t : List Char) :
    goTrim (t.dropWhile isSpaceChar) = goTrim t := by
  rw [goTrim_eq_rdrop, goTrim_eq_rdrop, List.dropWhile_idempotent]

theorem goTrim_rdropWhile (u : List Char) :
    goTrim (List.rdropWhile isSpaceChar u) = goTrim u := by
  rw [goTrim_eq_rdrop, goTrim_eq_rdrop, dropWhile_rdropWhile_comm,
    List.rdropWhile_idempotent]

theorem dropWhile_append_sep (t u : List Char) :
    List.dropWhile isSpaceChar (t ++ ':' :: ':' :: u)
      = t.dropWhile isSpaceChar ++ ':' :: ':' :: u := by
  rw [List.dropWhile_append]
  by_cases h : (List.dropWhile isSpaceChar t).isEmpty = true
  · rw [if_pos h]
    rw [List.isEmpty_iff] at h
    rw [h, List.nil_append, List.dropWhile_cons, if_neg (by decide)]
  · rw [if_neg h]

theorem rdropWhile_cons_cons_colon (u : List Char) :
    List.rdropWhile isSpaceChar (':' :: ':' :: u)
      = ':' :: ':' :: List.rdropWhile isSpaceChar u := by
  have h1 : (':' :: ':' :: u) = [':', ':'] ++ u := rfl
  by_cases hu : List.rdropWhile isSpaceChar u = []
  · have hall : ∀ x ∈ u, isSpaceChar x = true := List.rdropWhile_eq_nil_iff.mp hu
    have hrev : List.dropWhile isSpaceChar u.reverse = [] :=
      List.dropWhile_eq_nil_iff.mpr (fun x hx => hall x (List.mem_reverse.mp hx))
    rw [hu, h1]
    unfold List.rdropWhile
    rw [List.reverse_append, List.dropWhile_append, hrev]
    simp only [List.isEmpty_nil, if_pos]
    decide
  · rw [h1, rdropWhile_append_of_ne_nil hu]
    rfl

theorem goTrim_append_sep (t u : List Char) :
    goTrim (t ++ ':' :: ':' :: u)
      = t.dropWhile isSpaceChar ++ ':' :: ':' :: List.rdropWhile isSpaceChar u := by
  rw [goTrim_eq_rdrop, dropWhile_append_sep]
  have hne : List.rdropWhile isSpaceChar (':' :: ':' :: u) ≠ [] := by
    rw [rdropWhile_cons_cons_colon]
    simp
  rw [rdropWhile_append_of_ne_nil hne, rdropWhile_cons_cons_colon]

/-- C6 counterexample: the record with title `a:` and URL `b` — neither
field containing the separator `::` — serializes to `a:::b`, whose
leftmost `::` occurrence sits after `a`, so parsing yields title `a` and
URL `:b` instead of the original record (trimmed or not). -/
theorem parse_serialize_roundtrip_cex :
    containsSub ['a', ':'] [':', ':'] = false ∧
    containsSub ['b'] [':', ':'] = false ∧
    parseLine (serializeRecord ⟨['a', ':'], ['b']⟩)
      = some ⟨['a'], [':', 'b']⟩ ∧
    parseLine (serializeRecord ⟨['a', ':'], ['b']⟩)
      ≠ some ⟨goTrim ['a', ':'], goTrim ['b']⟩ := by decide

/-- C6 (amended): for a record whose title and URL contain no `::` and
whose title does not end with a colon, parsing the serialized line
returns the record with surrounding whitespace trimmed from both
fields. -/
theorem parse_serialize_roundtrip (t u : List Char)
    (ht : containsSub t [':', ':'] = false)
    (hu : containsSub u [':', ':'] = false)
    (hlast : t.getLast? ≠ some ':') :
    parseLine (serializeRecord ⟨t, u⟩) = some ⟨goTrim t, goTrim u⟩ := by
  have hassoc : serializeRecord ⟨t, u⟩ = t ++ ':' :: ':' :: u := by
    simp [serializeRecord]
  have hAsub : containsSub (t.dropWhile isSpaceChar) [':', ':'] = false :=
    containsSub_false_mono (List.dropWhile_suffix isSpaceChar).isInfix ht
  have hAlast : (t.dropWhile isSpaceChar).getLast? ≠ some ':' := by
    by_cases hAnil : t.dropWhile isSpaceChar = []
    · simp [hAnil]
    · rw [getLast?_of_suffix (List.dropWhile_suffix isSpaceChar) hAnil]
      exact hlast
  have hBsub : containsSub (List.rdropWhile isSpaceChar u) [':', ':'] = false :=
    containsSub_false_mono (List.rdropWhile_prefix isSpaceChar u).isInfix hu
  rw [hassoc]
  simp only [parseLine, goTrim_append_sep]
  rw [splitOnColons_append_sep _ _ hAsub hAlast,
    splitOnColons_no_sep _ hBsub]
  simp [goTrim_dropWhile, goTrim_rdropWhile]

/-- Witness for the amended round trip at a record with a single interior
colon in the URL. -/
theorem parse_serialize_roundtrip_witness :
    parseLine (serializeRecord ⟨['a'], ['b', ':', 'c']⟩)
      = some ⟨['a'], ['b', ':', 'c']⟩ :=
  (parse_serialize_roundtrip ['a'] ['b', ':', 'c']
    (by decide) (by decide) (by decide)).trans (by decide)

/-! ## Attribute-stripping idempotence (C7) -/

/-- The presentation attributes of the claim: inline style plus the six
attributes of the `Find("*")` pass. -/
def presAttrKeys : List String := "style" :: presentationAttrs

/-- Attribute list free of every presentation attribute. -/
def presFreeAttrs (a : List (String × String)) : Bool :=
  presAttrKeys.all (fun k => (getAttr a k).isNone)

mutual

/-- No element of the subtree other than an image carries a presentation
attribute. -/
def presFreeN : Node → Bool
  | .text _ => true
  | .elem t a cs => (t == "img" || presFreeAttrs a) && presFreeL cs

/-- `presFreeN` over a forest. -/
def presFreeL : List Node → Bool
  | [] => true
  | c :: cs => presFreeN c && presFreeL cs

end

theorem getAttr_removeAttr_self (a : List (String × String)) (k : String) :
    getAttr (removeAttr a k) k = none := by
  unfold getAttr removeAttr
  rw [Option.map_eq_none', List.find?_eq_none]
  intro x hx
  have := List.of_mem_filter hx
  simpa using this

theorem getAttr_removeAttr_other (a : List (String × String)) (k k2 : String)
    (h : getAttr a k2 = none) : getAttr (removeAttr a k) k2 = none := by
  unfold getAttr at h
  unfold getAttr removeAttr
  rw [Option.map_eq_none', List.find?_eq_none]
  rw [Option.map_eq_none', List.find?_eq_none] at h
  intro x hx
  exact h x (List.mem_of_mem_filter hx)

theorem removeAttr_of_getAttr_none (a : List (String × String)) (k : String)
    (h : getAttr a k = none) : removeAttr a k = a := by
  unfold getAttr at h
  rw [Option.map_eq_none', List.find?_eq_none] at h
  unfold removeAttr
  apply List.filter_eq_self.mpr
  intro x hx
  have := h x hx
  simpa using this

theorem presFreeL_append :
    ∀ xs ys, presFreeL (xs ++ ys) = (presFreeL xs && presFreeL ys)
  | [], ys => by simp [presFreeL]
  | x :: xs, ys => by
    simp [presFreeL, presFreeL_append xs ys, Bool.and_assoc]

theorem presFreeAttrs_strip (a : List (String × String)) :
    presFreeAttrs (removePresentation (removeAttr a "style")) = true := by
  have hstyle : getAttr (removePresentation (removeAttr a "style")) "style" = none := by
    unfold removePresentation
    iterate 6 apply getAttr_removeAttr_other
    exact getAttr_removeAttr_self a "style"
  unfold removePresentation at hstyle ⊢
  simp only [presFreeAttrs, presAttrKeys, presentationAttrs, List.all_cons,
    List.all_nil, Bool.and_true, Bool.and_eq_true, Option.isNone_iff_eq_none]
  refine ⟨hstyle, ?_, ?_, ?_, ?_, ?_, ?_⟩
  · iterate 5 apply getAttr_removeAttr_other
    apply getAttr_removeAttr_self
  · iterate 4 apply getAttr_removeAttr_other
    apply getAttr_removeAttr_self
  · iterate 3 apply getAttr_removeAttr_other
    apply getAttr_removeAttr_self
  · iterate 2 apply getAttr_removeAttr_other
    apply getAttr_removeAttr_self
  · apply getAttr_removeAttr_other
    apply getAttr_removeAttr_self
  · apply getAttr_removeAttr_self

theorem presFreeAttrs_fix (a : List (String × String))
    (h : presFreeAttrs a = true) :
    removePresentation (removeAttr a "style") = a := by
  simp only [presFreeAttrs, presAttrKeys, presentationAttrs, List.all_cons,
    List.all_nil, Bool.and_true, Bool.and_eq_true, Option.isNone_iff_eq_none] at h
  obtain ⟨h1, h2, h3, h4, h5, h6, h7⟩ := h
  rw [removeAttr_of_getAttr_none a "style" h1]
  unfold removePresentation
  rw [removeAttr_of_getAttr_none a "align" h2]
  rw [removeAttr_of_getAttr_none a "width" h3]
  rw [removeAttr_of_getAttr_none a "height" h4]
  rw [removeAttr_of_getAttr_none a "border" h5]
  rw [removeAttr_of_getAttr_none a "bgcolor" h6]
  rw [removeAttr_of_getAttr_none a "color" h7]

mutual

theorem presFree_strip_node : ∀ n, presFreeN (stripAttrsN (stripStyleN n)) = true
  | .text s => rfl
  | .elem t a cs => by
    simp only [stripStyleN, stripAttrsN, presFreeN,
      presFree_strip_list cs, Bool.and_true]
    by_cases ht : (t == "img") = true
    · simp [ht]
    · simp only [Bool.not_eq_true] at ht
      simp [ht, presFreeAttrs_strip]

theorem presFree_strip_list : ∀ cs, presFreeL (stripAttrsL (stripStyleL cs)) = true
  | [] => rfl
  | c :: cs => by
    simp [stripStyleL, stripAttrsL, presFreeL,
      presFree_strip_node c, presFree_strip_list cs]

end

mutual

theorem presFree_removeEmptyPs_node :
    ∀ n, presFreeN n = true → presFreeL (removeEmptyPsN n) = true
  | .text _, _ => rfl
  | .elem t a cs, h => by
    simp only [presFreeN, Bool.and_eq_true] at h
    unfold removeEmptyPsN
    by_cases hrm : (t == "p"
        && (trimS (renderL cs) == "" || trimS (renderL cs) == "&nbsp;")) = true
    · rw [if_pos hrm]
      rfl
    · rw [if_neg hrm]
      simp [presFreeL, presFreeN, h.1, presFree_removeEmptyPs_list cs h.2]

theorem presFree_removeEmptyPs_list :
    ∀ cs, presFreeL cs = true → presFreeL (removeEmptyPsL cs) = true
  | [], _ => rfl
  | c :: cs, h => by
    simp only [presFreeL, Bool.and_eq_true] at h
    unfold removeEmptyPsL
    have h1 := presFree_removeEmptyPs_node c h.1
    have h2 := presFree_removeEmptyPs_list cs h.2
    rw [presFreeL_append, h1, h2]
    rfl

end

mutual

theorem strip_fix_node : ∀ n, presFreeN n = true → stripAttrsN (stripStyleN n) = n
  | .text _, _ => rfl
  | .elem t a cs, h => by
    simp only [presFreeN, Bool.and_eq_true] at h
    simp only [stripStyleN, stripAttrsN]
    rw [strip_fix_list cs h.2]
    by_cases ht : (t == "img") = true
    · simp [ht]
    · simp only [Bool.not_eq_true] at ht
      simp only [ht, Bool.false_eq_true, if_neg, ite_false]
      rcases (Bool.or_eq_true _ _).mp h.1 with h1 | h1
      · rw [ht] at h1
        cases h1
      · rw [presFreeAttrs_fix a h1]

theorem strip_fix_list : ∀ cs, presFreeL cs = true → stripAttrsL (stripStyleL cs) = cs
  | [], _ => rfl
  | c :: cs, h => by
    simp only [presFreeL, Bool.and_eq_true] at h
    simp only [stripStyleL, stripAttrsL]
    rw [strip_fix_node c h.1, strip_fix_list cs h.2]

end

/-- C7: the attribute stripping of `CleanHTML` is idempotent — the output
document's content carries no style, align, width, height, border,
bgcolor or color attribute on any element other than an image, and
re-running the two stripping passes on the output changes nothing. -/
theorem cleanHTML_attr_strip_idempotent (d : Node) :
    presFreeL (childrenOf (cleanHTMLDom d)) = true ∧
    stripAttrs (stripStyles (cleanHTMLDom d)) = cleanHTMLDom d := by
  have hfree : presFreeL (childrenOf (cleanHTMLDom d)) = true := by
    unfold cleanHTMLDom removeEmptyParagraphs stripAttrs stripStyles removeSharethis
    cases d with
    | text s => rfl
    | elem t a cs =>
      simp only [childrenOf]
      exact presFree_removeEmptyPs_list _ (presFree_strip_list _)
  refine ⟨hfree, ?_⟩
  cases hdom : cleanHTMLDom d with
  | text s => rfl
  | elem t a cs =>
    rw [hdom] at hfree
    simp only [childrenOf] at hfree
    simp only [stripStyles, stripAttrs]
    rw [strip_fix_list cs hfree]

/-! ## Pass ordering and image preservation (C3) -/

/-- Modelled from the spec: the Content Normalizer's tree passes composed
in the order the spec states them — widget removal (1), chapter-title
removal (2), attribution-line removal (3), Part promotion (4),
empty-element removal (5), keyword navigation removal (6), last-three
removal (7).  Each pass is the code's own pass; only the composition
order follows the spec's words, for comparison with
`extractContentPasses`. -/
def specOrderPasses (d : Node) : Node :=
  removeLastThreeCentered
    (removeNavKeyword
      (removeEmptyElements
        (convertPartHeadings
          (removeBlogURLEntries
            (removeChapterTitleFirst
              (removeSharethis d))))))

/-- A wrapper div whose only content is a sharethis widget with text. -/
def sharethisWrapperDoc : Node :=
  .elem "#document" [] [
    .elem "div" [] [
      .elem "div" [("class", "sharethis-inline-reaction-buttons")]
        [.text "share me"]]]

theorem cntL_append (p : Node → Bool) :
    ∀ xs ys, cntL p (xs ++ ys) = cntL p xs + cntL p ys
  | [], ys => by simp [cntL]
  | x :: xs, ys => by
    show cntN p x + cntL p (xs ++ ys) = cntL p (x :: xs) + cntL p ys
    rw [cntL_append p xs ys]
    show cntN p x + (cntL p xs + cntL p ys)
      = cntN p x + cntL p xs + cntL p ys
    omega

mutual

theorem cnt_zero_of_not_anyN (p : Node → Bool) :
    ∀ n, anyN p n = false → cntN p n = 0
  | .text s, h => by
    simp only [anyN] at h
    simp [cntN, h]
  | .elem t a cs, h => by
    simp only [anyN, Bool.or_eq_false_iff] at h
    simp [cntN, h.1, cnt_zero_of_not_anyL p cs h.2]

theorem cnt_zero_of_not_anyL (p : Node → Bool) :
    ∀ cs, anyL p cs = false → cntL p cs = 0
  | [], _ => rfl
  | c :: cs, h => by
    simp only [anyL, Bool.or_eq_false_iff] at h
    simp [cntL, cnt_zero_of_not_anyN p c h.1, cnt_zero_of_not_anyL p cs h.2]

end

mutual

theorem removeEmpty_imgs_node : ∀ n, cntL isImg (removeEmptyN n) = cntN isImg n
  | .text s => rfl
  | .elem t a cs => by
    unfold removeEmptyN
    by_cases hrm : (emptyCheckTags.contains t && trimS (textL cs) == ""
        && !anyL isImg cs) = true
    · rw [if_pos hrm]
      simp only [Bool.and_eq_true, Bool.not_eq_eq_eq_not, Bool.not_true] at hrm
      have h0 : cntL isImg cs = 0 := cnt_zero_of_not_anyL isImg cs hrm.2
      have ht : t ≠ "img" := by
        intro ht
        subst ht
        have := hrm.1.1
        simp [emptyCheckTags] at this
      simp [cntL, cntN, isImg, tagOf, ht, h0]
    · rw [if_neg hrm]
      simp only [cntL, cntN]
      rw [removeEmpty_imgs_list cs]
      rfl

theorem removeEmpty_imgs_list : ∀ cs, cntL isImg (removeEmptyL cs) = cntL isImg cs
  | [] => rfl
  | c :: cs => by
    unfold removeEmptyL
    rw [cntL_append, removeEmpty_imgs_node c, removeEmpty_imgs_list cs]
    rfl

end

theorem rdropWhile_append_rtakeWhile {α : Type} (p : α → Bool) (l : List α) :
    List.rdropWhile p l ++ List.rtakeWhile p l = l := by
  unfold List.rdropWhile List.rtakeWhile
  rw [← List.reverse_append, List.takeWhile_append_dropWhile,
    List.reverse_reverse]

theorem mem_goTrim_of_not_space {c : Char} (hc : isSpaceChar c = false)
    {l : List Char} (h : c ∈ l) : c ∈ goTrim l := by
  have hdec1 : l.takeWhile isSpaceChar ++ l.dropWhile isSpaceChar = l :=
    List.takeWhile_append_dropWhile isSpaceChar l
  have hdec2 : List.rdropWhile isSpaceChar (l.dropWhile isSpaceChar)
      ++ List.rtakeWhile isSpaceChar (l.dropWhile isSpaceChar)
      = l.dropWhile isSpaceChar :=
    rdropWhile_append_rtakeWhile isSpaceChar (l.dropWhile isSpaceChar)
  rw [goTrim_eq_rdrop]
  rw [← hdec1] at h
  rcases List.mem_append.mp h with h | h
  · exact absurd (List.mem_takeWhile_imp h) (by simp [hc])
  · rw [← hdec2] at h
    rcases List.mem_append.mp h with h | h
    · exact h
    · exact absurd (List.mem_rtakeWhile_imp h) (by simp [hc])

theorem lt_mem_renderN_elem (t : String) (a : List (String × String))
    (cs : List Node) : '<' ∈ (renderN (.elem t a cs)).toList := by
  unfold renderN
  by_cases h : voidTags.contains t = true
  · rw [if_pos h]
    simp only [String.toList, String.data_append, List.append_assoc]
    refine List.mem_append.mpr (Or.inl ?_)
    decide
  · rw [if_neg h]
    simp only [String.toList, String.data_append, List.append_assoc]
    refine List.mem_append.mpr (Or.inl ?_)
    decide

theorem lt_mem_renderL : ∀ cs, anyL isImg cs = true → '<' ∈ (renderL cs).toList
  | c :: cs, h => by
    rcases (Bool.or_eq_true _ _).mp h with h1 | h1
    · cases c with
      | text s => simp [anyN, isImg, isElem] at h1
      | elem t a cc =>
        unfold renderL
        rw [String.toList, String.data_append]
        exact List.mem_append.mpr (Or.inl (lt_mem_renderN_elem t a cc))
    · unfold renderL
      rw [String.toList, String.data_append]
      exact List.mem_append.mpr (Or.inr (lt_mem_renderL cs h1))

theorem no_imgs_of_trim_render_empty {cs : List Node}
    (h : trimS (renderL cs) = "" ∨ trimS (renderL cs) = "&nbsp;") :
    anyL isImg cs = false := by
  by_contra hany
  rw [Bool.not_eq_false] at hany
  have hin : '<' ∈ (renderL cs).toList := lt_mem_renderL cs hany
  have hmem : '<' ∈ goTrim (renderL cs).toList :=
    mem_goTrim_of_not_space (by decide) hin
  rcases h with h | h
  · have : goTrim (renderL cs).toList = ([] : List Char) :=
      congrArg String.data h
    rw [this] at hmem
    cases hmem
  · have : goTrim (renderL cs).toList = ("&nbsp;" : String).data :=
      congrArg String.data h
    rw [this] at hmem
    revert hmem
    decide

mutual

theorem removeEmptyPs_imgs_node :
    ∀ n, cntL isImg (removeEmptyPsN n) = cntN isImg n
  | .text s => rfl
  | .elem t a cs => by
    unfold removeEmptyPsN
    by_cases hrm : (t == "p" && (trimS (renderL cs) == ""
        || trimS (renderL cs) == "&nbsp;")) = true
    · rw [if_pos hrm]
      simp only [Bool.and_eq_true, Bool.or_eq_true, beq_iff_eq] at hrm
      have hno : anyL isImg cs = false := no_imgs_of_trim_render_empty hrm.2
      have h0 : cntL isImg cs = 0 := cnt_zero_of_not_anyL isImg cs hno
      simp [cntL, cntN, isImg, tagOf, hrm.1, h0]
    · rw [if_neg hrm]
      simp only [cntL, cntN]
      rw [removeEmptyPs_imgs_list cs]
      rfl

theorem removeEmptyPs_imgs_list :
    ∀ cs, cntL isImg (removeEmptyPsL cs) = cntL isImg cs
  | [] => rfl
  | c :: cs => by
    unfold removeEmptyPsL
    rw [cntL_append, removeEmptyPs_imgs_node c, removeEmptyPs_imgs_list cs]
    rfl

end

/-- C3 counterexample: on a wrapper div holding a sharethis widget with
text, the code's pipeline (empty-element removal first) leaves an empty
wrapper `<div></div>`, while the same passes composed in the spec's
stated order (empty-element removal after widget removal) delete it; the
outputs differ, so the passes do not run in the stated order. -/
theorem normalizer_pass_order_cex :
    extractContentPasses sharethisWrapperDoc
      = .elem "#document" [] [.elem "div" [] []] ∧
    specOrderPasses sharethisWrapperDoc = .elem "#document" [] [] ∧
    extractContentPasses sharethisWrapperDoc
      ≠ specOrderPasses sharethisWrapperDoc := by decide

/-- C3 (amended): the scraper applies empty-element removal first, before
widget, chapter-title, attribution and Part passes; image conversion runs
after `CleanHTML`, not before pass 5.  Image-only elements are still never
misclassified as empty, because both empty-removal passes count image
content: each preserves the number of img elements of the document. -/
theorem empty_passes_preserve_images :
    (∀ d, cntN isImg (removeEmptyElements d) = cntN isImg d) ∧
    (∀ d, cntN isImg (removeEmptyParagraphs d) = cntN isImg d) ∧
    (∀ d, extractContentPasses d
      = convertDivsToParagraphs
          (processNavigationElements
            (convertPartHeadings
              (removeBlogURLEntries
                (removeRedundantElements
                  (removeEmptyElements d)))))) := by
  refine ⟨?_, ?_, fun d => rfl⟩
  · intro d
    cases d with
    | text s => rfl
    | elem t a cs =>
      simp only [removeEmptyElements, cntN]
      rw [removeEmpty_imgs_list cs]
      simp [isImg, isElem, tagOf]
  · intro d
    cases d with
    | text s => rfl
    | elem t a cs =>
      simp only [removeEmptyParagraphs, cntN]
      rw [removeEmptyPs_imgs_list cs]
      simp [isImg, isElem, tagOf]

/-! ## Image failure handling (C5) -/

/-- An image-processor environment whose every external call fails. -/
def failingImgEnv : ImgEnv Unit :=
  { downloadFile := fun _ _ => none
    saveToFile := fun _ _ => none
    addImage := fun _ _ => none
    parseUrl := fun _ => none
    resolveRef := fun _ _ => ""
    nowNano := 7 }

/-- A fragment holding one image with a relative source URL. -/
def relImgDoc : Node :=
  .elem "#document" [] [.elem "p" [] [.elem "img" [("src", "/rel.jpg")] []]]

/-- C5 counterexample: when the image fetch fails, `ProcessImages` does
not drop the image — the fragment comes back unchanged, its img element
still present and still holding the unresolved relative URL
`/rel.jpg`. -/
theorem image_failure_not_dropped_cex :
    processImages failingImgEnv "http://x/page" relImgDoc = relImgDoc ∧
    cntN isImg (processImages failingImgEnv "http://x/page" relImgDoc) = 1 ∧
    nodeAttr (nodeAtD [0, 0] (processImages failingImgEnv "http://x/page" relImgDoc))
      "src" = some "/rel.jpg" := by decide

/-- C5 (amended): when the fetch of an image fails — download error, empty
data, or save error — the remaining-image step leaves that img element
exactly as it was, original (possibly relative) src included, and the
image loop continues into the element's children and siblings with the
next index. -/
theorem image_fetch_failure_unchanged {U : Type} (env : ImgEnv U)
    (pageURL : String) (i : Nat) (t : String) (a : List (String × String))
    (cs : List Node) (s : String)
    (himg : isImg (.elem t a cs) = true)
    (hsrc : nodeAttr (.elem t a cs) "src" = some s)
    (hrel : strStartsWith s "../" = false)
    (hfail :
      env.downloadFile (resolveURL env.parseUrl env.resolveRef s pageURL)
          ("image_" ++ toString env.nowNano ++ "_" ++ toString i
            ++ (if goExt (resolveURL env.parseUrl env.resolveRef s pageURL) == ""
                then ".jpg"
                else goExt (resolveURL env.parseUrl env.resolveRef s pageURL)))
        = none
      ∨ env.downloadFile (resolveURL env.parseUrl env.resolveRef s pageURL)
          ("image_" ++ toString env.nowNano ++ "_" ++ toString i
            ++ (if goExt (resolveURL env.parseUrl env.resolveRef s pageURL) == ""
                then ".jpg"
                else goExt (resolveURL env.parseUrl env.resolveRef s pageURL)))
        = some []
      ∨ ∃ data,
          env.downloadFile (resolveURL env.parseUrl env.resolveRef s pageURL)
            ("image_" ++ toString env.nowNano ++ "_" ++ toString i
              ++ (if goExt (resolveURL env.parseUrl env.resolveRef s pageURL) == ""
                  then ".jpg"
                  else goExt (resolveURL env.parseUrl env.resolveRef s pageURL)))
            = some data
          ∧ env.saveToFile data
              ("image_" ++ toString env.nowNano ++ "_" ++ toString i
                ++ (if goExt (resolveURL env.parseUrl env.resolveRef s pageURL) == ""
                    then ".jpg"
                    else goExt (resolveURL env.parseUrl env.resolveRef s pageURL)))
            = none) :
    imgStep env pageURL i (.elem t a cs) = .elem t a cs ∧
    processImgsN env pageURL i (.elem t a cs)
      = (.elem t a (processImgsL env pageURL (i + 1) cs).1,
         (processImgsL env pageURL (i + 1) cs).2) := by
  have hstep : imgStep env pageURL i (.elem t a cs) = .elem t a cs := by
    unfold imgStep
    rw [hsrc]
    simp only [Option.getD_some, hrel, Bool.false_eq_true, if_false]
    by_cases hempty :
        (resolveURL env.parseUrl env.resolveRef s pageURL == "") = true
    · rw [if_pos hempty]
    · rw [if_neg hempty]
      rcases hfail with h | h | ⟨data, hdl, hsv⟩
      · rw [h]
      · rw [h]
        rfl
      · simp only [hdl]
        by_cases hlen : (data.length == 0) = true
        · rw [if_pos hlen]
        · rw [if_neg hlen, hsv]
  refine ⟨hstep, ?_⟩
  unfold processImgsN
  rw [if_pos himg, hstep]
  rfl

/-- Witness for the failing-image theorem at a concrete relative image and
the all-failing environment. -/
theorem image_fetch_failure_unchanged_witness :
    imgStep failingImgEnv "http://x/page" 0
        (.elem "img" [("src", "/rel.jpg")] [])
      = .elem "img" [("src", "/rel.jpg")] [] :=
  (image_fetch_failure_unchanged failingImgEnv "http://x/page" 0
    "img" [("src", "/rel.jpg")] [] "/rel.jpg"
    (by decide) (by decide) (by decide) (Or.inl rfl)).1

/-! ## Counting matches under path-set removal (C8) -/

theorem contains_iff_mem {α : Type} [BEq α] [LawfulBEq α] (s : List α) (a : α) :
    s.contains a = true ↔ a ∈ s :=
  List.elem_iff

mutual

theorem mpathsN_length (p : Node → Bool) :
    ∀ n, (mpathsN p n).length = cntN p n
  | .text s => by
    unfold mpathsN cntN
    by_cases h : p (.text s) = true <;> simp [h]
  | .elem t a cs => by
    unfold mpathsN cntN
    rw [List.length_append, mpathsL_length p cs 0]
    by_cases h : p (.elem t a cs) = true <;> simp [h]

theorem mpathsL_length (p : Node → Bool) :
    ∀ (cs : List Node) (i : Nat), (mpathsL p i cs).length = cntL p cs
  | [], _ => rfl
  | c :: cs, i => by
    unfold mpathsL cntL
    rw [List.length_append, List.length_map, mpathsN_length p c,
      mpathsL_length p cs (i + 1)]

end

theorem mpathsL_heads (p : Node → Bool) :
    ∀ (cs : List Node) (i : Nat) (q : List Nat), q ∈ mpathsL p i cs →
      ∃ j rest, q = j :: rest ∧ i ≤ j
  | c :: cs, i, q, hq => by
    unfold mpathsL at hq
    rcases List.mem_append.mp hq with h | h
    · obtain ⟨r, _, rfl⟩ := List.mem_map.mp h
      exact ⟨i, r, rfl, Nat.le_refl i⟩
    · obtain ⟨j, r, rfl, hj⟩ := mpathsL_heads p cs (i + 1) q h
      exact ⟨j, r, rfl, Nat.le_of_succ_le hj⟩

theorem nil_not_mem_mpathsL (p : Node → Bool) (cs : List Node) (i : Nat) :
    ([] : List Nat) ∉ mpathsL p i cs := by
  intro h
  obtain ⟨j, r, hq, _⟩ := mpathsL_heads p cs i [] h
  cases hq

theorem stripIdx_append (i : Nat) (A B : List (List Nat)) :
    stripIdx i (A ++ B) = stripIdx i A ++ stripIdx i B :=
  List.filterMap_append A B _

theorem stripIdx_map_cons_self (i : Nat) (Y : List (List Nat)) :
    stripIdx i (Y.map (i :: ·)) = Y := by
  unfold stripIdx
  rw [List.filterMap_map]
  have : ∀ y : List Nat,
      (fun q : List Nat =>
        match q with
        | [] => none
        | j :: rest => if j = i then some rest else none) ((i :: ·) y)
      = some y := by
    intro y
    simp
  simp only [Function.comp_def, this]
  exact List.filterMap_some ..

theorem stripIdx_eq_nil (i : Nat) (S : List (List Nat))
    (h : ∀ q ∈ S, ∃ j rest, q = j :: rest ∧ j ≠ i) :
    stripIdx i S = [] := by
  unfold stripIdx
  rw [List.filterMap_eq_nil_iff]
  intro q hq
  obtain ⟨j, rest, rfl, hj⟩ := h q hq
  simp [hj]

theorem cntN_elem (p : Node → Bool) (t : String) (a : List (String × String))
    (cs : List Node) :
    cntN p (.elem t a cs) = (if p (.elem t a cs) then 1 else 0) + cntL p cs :=
  rfl

theorem cntL_cons (p : Node → Bool) (c : Node) (cs : List Node) :
    cntL p (c :: cs) = cntN p c + cntL p cs :=
  rfl

mutual

theorem rmPathsN_nil : ∀ n, rmPathsN [] n = some n
  | .text s => rfl
  | .elem t a cs => by
    unfold rmPathsN
    rw [if_neg (by decide)]
    show some (Node.elem t a (rmPathsL [] 0 cs)) = some (.elem t a cs)
    rw [rmPathsL_nil cs 0]

theorem rmPathsL_nil : ∀ (cs : List Node) (i : Nat), rmPathsL [] i cs = cs
  | [], _ => rfl
  | c :: cs, i => by
    unfold rmPathsL
    have : stripIdx i ([] : List (List Nat)) = [] := rfl
    rw [this, rmPathsN_nil c, rmPathsL_nil cs (i + 1)]
    rfl

end

theorem suffix_append_cases {α : Type} :
    ∀ (A : List α) {S B : List α}, S <:+ A ++ B →
      S <:+ B ∨ ∃ A2, A2 <:+ A ∧ S = A2 ++ B
  | [], S, B, h => Or.inl h
  | a :: A1, S, B, h => by
    rcases List.suffix_cons_iff.mp h with h | h
    · exact Or.inr ⟨a :: A1, List.suffix_refl _, h⟩
    · rcases suffix_append_cases A1 h with h | ⟨A2, h2, rfl⟩
      · exact Or.inl h
      · exact Or.inr ⟨A2, h2.trans (List.suffix_cons a A1), rfl⟩

theorem suffix_map_cases {α β : Type} (f : α → β) :
    ∀ (X : List α) {A2 : List β}, A2 <:+ X.map f →
      ∃ Y, Y <:+ X ∧ A2 = Y.map f
  | [], A2, h => by
    have : A2 = [] := List.eq_nil_of_suffix_nil h
    exact ⟨[], List.suffix_refl _, by simp [this]⟩
  | x :: X1, A2, h => by
    rw [List.map_cons] at h
    rcases List.suffix_cons_iff.mp h with h | h
    · exact ⟨x :: X1, List.suffix_refl _, by simp [h]⟩
    · rcases suffix_map_cases f X1 h with ⟨Y, hY, rfl⟩
      exact ⟨Y, hY.trans (List.suffix_cons x X1), rfl⟩

mutual

theorem rm_cnt_node (p : Node → Bool)
    (hloc : ∀ t a cs cs2, p (.elem t a cs) = p (.elem t a cs2)) :
    ∀ (n : Node) (S : List (List Nat)), S <:+ mpathsN p n →
      (match rmPathsN S n with
        | none => 0
        | some m => cntN p m) = cntN p n - S.length
  | n, S, hS => by
    by_cases hnil : ([] : List Nat) ∈ S
    · have hwhole : S = mpathsN p n := by
        cases n with
        | text s =>
          unfold mpathsN at hS ⊢
          by_cases hp : p (.text s) = true
          · rw [if_pos hp] at hS ⊢
            rcases List.suffix_cons_iff.mp hS with h | h
            · exact h
            · have := List.eq_nil_of_suffix_nil h
              subst this
              cases hnil
          · rw [if_neg hp] at hS
            have := List.eq_nil_of_suffix_nil hS
            subst this
            cases hnil
        | elem t a cs =>
          unfold mpathsN at hS ⊢
          by_cases hp : p (.elem t a cs) = true
          · rw [if_pos hp] at hS ⊢
            rw [List.singleton_append] at hS ⊢
            rcases List.suffix_cons_iff.mp hS with h | h
            · exact h
            · exact absurd (h.subset hnil) (nil_not_mem_mpathsL p cs 0)
          · rw [if_neg hp] at hS
            rw [List.nil_append] at hS
            exact absurd (hS.subset hnil) (nil_not_mem_mpathsL p cs 0)
      have hrm : rmPathsN S n = none := by
        unfold rmPathsN
        rw [if_pos ((contains_iff_mem S []).mpr hnil)]
      rw [hrm, hwhole, mpathsN_length]
      show (0 : Nat) = cntN p n - cntN p n
      omega
    · have hrm : S.contains ([] : List Nat) = false := by
        rw [← Bool.not_eq_true, contains_iff_mem]
        exact hnil
      cases n with
      | text s =>
        have hSnil : S = [] := by
          unfold mpathsN at hS
          by_cases hp : p (.text s) = true
          · rw [if_pos hp] at hS
            rcases List.suffix_cons_iff.mp hS with h | h
            · rw [h] at hnil
              exact absurd (List.mem_singleton.mpr rfl) hnil
            · exact List.eq_nil_of_suffix_nil h
          · rw [if_neg hp] at hS
            exact List.eq_nil_of_suffix_nil hS
        subst hSnil
        rw [rmPathsN_nil]
        simp
      | elem t a cs =>
        have hSsub : S <:+ mpathsL p 0 cs := by
          unfold mpathsN at hS
          by_cases hp : p (.elem t a cs) = true
          · rw [if_pos hp, List.singleton_append] at hS
            rcases List.suffix_cons_iff.mp hS with h | h
            · rw [h] at hnil
              exact absurd (List.mem_cons_self _ _) hnil
            · exact h
          · rwa [if_neg hp, List.nil_append] at hS
        have hrmn : rmPathsN S (.elem t a cs)
            = some (.elem t a (rmPathsL S 0 cs)) := by
          unfold rmPathsN
          rw [hrm]
          rfl
        rw [hrmn]
        have hcnt := rm_cnt_forest p hloc cs 0 [] S
          (by intro q hq; cases hq) hSsub
        rw [List.nil_append] at hcnt
        have hlen : S.length ≤ cntL p cs := by
          have := hSsub.length_le
          rwa [mpathsL_length] at this
        show cntN p (.elem t a (rmPathsL S 0 cs))
          = cntN p (.elem t a cs) - S.length
        rw [cntN_elem, cntN_elem, hloc t a (rmPathsL S 0 cs) cs, hcnt]
        by_cases hp : p (.elem t a cs) = true
        · rw [if_pos hp]
          omega
        · rw [if_neg hp]
          omega

theorem rm_cnt_forest (p : Node → Bool)
    (hloc : ∀ t a cs cs2, p (.elem t a cs) = p (.elem t a cs2)) :
    ∀ (cs : List Node) (i : Nat) (J S : List (List Nat)),
      (∀ q ∈ J, ∃ j rest, q = j :: rest ∧ j < i) →
      S <:+ mpathsL p i cs →
      cntL p (rmPathsL (J ++ S) i cs) = cntL p cs - S.length
  | [], i, J, S, hJ, hS => by
    have : S = [] := List.eq_nil_of_suffix_nil hS
    subst this
    simp [rmPathsL, cntL]
  | c :: cs, i, J, S, hJ, hS => by
    unfold mpathsL at hS
    have hJlt : ∀ q ∈ J, ∃ j rest, q = j :: rest ∧ j ≠ i := by
      intro q hq
      obtain ⟨j, rest, rfl, hj⟩ := hJ q hq
      exact ⟨j, rest, rfl, Nat.ne_of_lt hj⟩
    rcases suffix_append_cases ((mpathsN p c).map (i :: ·)) hS
      with hSB | ⟨A2, hA2, rfl⟩
    · -- the suffix lies entirely in the later siblings
      have hstrip : stripIdx i (J ++ S) = [] := by
        rw [stripIdx_append]
        rw [stripIdx_eq_nil i J hJlt, stripIdx_eq_nil i S ?_]
        · rfl
        · intro q hq
          obtain ⟨j, rest, rfl, hj⟩ := mpathsL_heads p cs (i + 1) q (hSB.subset hq)
          exact ⟨j, rest, rfl, by omega⟩
      unfold rmPathsL
      rw [hstrip, rmPathsN_nil c]
      rw [cntL_append]
      have hrec := rm_cnt_forest p hloc cs (i + 1) J S
        (by
          intro q hq
          obtain ⟨j, rest, rfl, hj⟩ := hJ q hq
          exact ⟨j, rest, rfl, by omega⟩) hSB
      rw [hrec]
      have hlen : S.length ≤ cntL p cs := by
        have := hSB.length_le
        rwa [mpathsL_length] at this
      show cntN p c + (cntL p cs - S.length) = cntL p (c :: cs) - S.length
      rw [cntL_cons]
      omega
    · -- the suffix reaches into the first child's matches
      obtain ⟨Y, hY, rfl⟩ := suffix_map_cases (i :: ·) (mpathsN p c) hA2
      have hstrip : stripIdx i (J ++ (Y.map (i :: ·) ++ mpathsL p (i + 1) cs))
          = Y := by
        rw [stripIdx_append, stripIdx_append]
        rw [stripIdx_eq_nil i J hJlt, stripIdx_map_cons_self,
          stripIdx_eq_nil i (mpathsL p (i + 1) cs) ?_]
        · simp
        · intro q hq
          obtain ⟨j, rest, rfl, hj⟩ := mpathsL_heads p cs (i + 1) q hq
          exact ⟨j, rest, rfl, by omega⟩
      unfold rmPathsL
      rw [hstrip]
      rw [cntL_append]
      have hrest := rm_cnt_forest p hloc cs (i + 1) (J ++ Y.map (i :: ·))
        (mpathsL p (i + 1) cs)
        (by
          intro q hq
          rcases List.mem_append.mp hq with hq | hq
          · obtain ⟨j, rest, rfl, hj⟩ := hJ q hq
            exact ⟨j, rest, rfl, by omega⟩
          · obtain ⟨r, _, rfl⟩ := List.mem_map.mp hq
            exact ⟨i, r, rfl, by omega⟩)
        (List.suffix_refl _)
      rw [List.append_assoc] at hrest
      rw [hrest]
      have hYlen : Y.length ≤ cntN p c := by
        have := hY.length_le
        rwa [mpathsN_length] at this
      have hchild := rm_cnt_node p hloc c Y hY
      have hKlen : (mpathsL p (i + 1) cs).length = cntL p cs :=
        mpathsL_length p cs (i + 1)
      cases hc : rmPathsN Y c with
      | none =>
        rw [hc] at hchild
        have h0 : (0 : Nat) = cntN p c - Y.length := hchild
        simp only [hc]
        rw [List.length_append, List.length_map, hKlen, cntL_cons]
        show cntL p [] + (cntL p cs - cntL p cs)
          = cntN p c + cntL p cs - (Y.length + cntL p cs)
        show (0 : Nat) + (cntL p cs - cntL p cs)
          = cntN p c + cntL p cs - (Y.length + cntL p cs)
        omega
      | some c2 =>
        rw [hc] at hchild
        have h2 : cntN p c2 = cntN p c - Y.length := hchild
        simp only [hc]
        rw [List.length_append, List.length_map, hKlen, cntL_cons]
        show cntL p [c2] + (cntL p cs - cntL p cs)
          = cntN p c + cntL p cs - (Y.length + cntL p cs)
        rw [cntL_cons]
        show cntN p c2 + (0 : Nat) + (cntL p cs - cntL p cs)
          = cntN p c + cntL p cs - (Y.length + cntL p cs)
        omega

end
/-- Three centered divs with neutral text: centered in the sense of the
keyword pass's own selector, but invisible to the last-three removal. -/
def centeredDivsDoc : Node :=
  .elem "#document" [] [
    .elem "div" [("style", "text-align: center")] [.text "alpha"],
    .elem "div" [("style", "text-align: center")] [.text "beta"],
    .elem "div" [("style", "text-align: center")] [.text "gamma"]]

/-- C8 counterexample: after the keyword pass three centered elements
remain — divs, which the keyword pass itself counts as centered — yet
`processNavigationElements` removes none of them, because the last-three
removal only matches `p[style*='text-align: center']`. -/
theorem last_three_centered_cex :
    cntN centeredLoose centeredDivsDoc = 3 ∧
    removeNavKeyword centeredDivsDoc = centeredDivsDoc ∧
    processNavigationElements centeredDivsDoc = centeredDivsDoc := by decide

/-- C8 (amended): the last-three removal considers only `p` elements
whose style contains `text-align: center`; if at least three such remain,
the last three in document order are removed (exactly three matches fewer
remain); if fewer than three remain, the pass leaves the document
unchanged. -/
theorem last_three_centered_removal (d : Node) :
    ((findPaths centeredStrict d).length < 3 → removeLastThreeCentered d = d) ∧
    (3 ≤ (findPaths centeredStrict d).length →
      (findPaths centeredStrict (removeLastThreeCentered d)).length
        = (findPaths centeredStrict d).length - 3) := by
  constructor
  · intro h
    unfold removeLastThreeCentered
    rw [if_neg (by omega)]
  · intro h3
    cases d with
    | text s =>
      have h0 : (findPaths centeredStrict (.text s)).length = 0 := rfl
      omega
    | elem t a cs =>
      unfold removeLastThreeCentered
      rw [if_pos h3]
      have hloc : ∀ t2 a2 cs2 cs3,
          centeredStrict (.elem t2 a2 cs2) = centeredStrict (.elem t2 a2 cs3) :=
        fun _ _ _ _ => rfl
      have hforest := rm_cnt_forest centeredStrict hloc cs 0 []
        ((findPaths centeredStrict (.elem t a cs)).drop
          ((findPaths centeredStrict (.elem t a cs)).length - 3))
        (by intro q hq; cases hq)
        (List.drop_suffix _ _)
      rw [List.nil_append] at hforest
      show (mpathsL centeredStrict 0
          (rmPathsL ((findPaths centeredStrict (.elem t a cs)).drop
            ((findPaths centeredStrict (.elem t a cs)).length - 3)) 0 cs)).length
        = (findPaths centeredStrict (.elem t a cs)).length - 3
      rw [mpathsL_length, hforest, List.length_drop]
      have hlen : (findPaths centeredStrict (.elem t a cs)).length
          = cntL centeredStrict cs := mpathsL_length centeredStrict cs 0
      omega

/-- A page with two strictly-centered paragraphs. -/
def twoCenteredDoc : Node :=
  .elem "#document" [] [
    .elem "p" [("style", "text-align: center")] [.text "one"],
    .elem "p" [("style", "text-align: center")] [.text "two"]]

/-- A page with four strictly-centered paragraphs. -/
def fourCenteredDoc : Node :=
  .elem "#document" [] [
    .elem "p" [("style", "text-align: center")] [.text "one"],
    .elem "p" [("style", "text-align: center")] [.text "two"],
    .elem "p" [("style", "text-align: center")] [.text "three"],
    .elem "p" [("style", "text-align: center")] [.text "four"]]

/-- Witness for the last-three removal: two matches are left alone; of
four matches exactly one survives. -/
theorem last_three_centered_removal_witness :
    removeLastThreeCentered twoCenteredDoc = twoCenteredDoc ∧
    (findPaths centeredStrict (removeLastThreeCentered fourCenteredDoc)).length
      = 1 := by
  constructor
  · exact (last_three_centered_removal twoCenteredDoc).1 (by decide)
  · have h := (last_three_centered_removal fourCenteredDoc).2 (by decide)
    rw [h]
    decide

/-- C1: on the stream of successfully processed entries
`(Ch1, a), (Ch1, b), (Ch2, c)` the assembly loop emits exactly two
chapters, `Ch1` with fragments `[a, b]` in arrival order and `Ch2` with
`[c]`; and in general, a title change on an open chapter with content
emits that chapter before the new one is opened. -/
theorem chapter_assembler_title_runs (T1 T2 a b c : String)
    (hT : T1 ≠ T2)
    (h1 : (Chapter.mk T1 [a, b]).hasContent = true)
    (h2 : (Chapter.mk T2 [c]).hasContent = true) :
    assembleChapters [(T1, a), (T1, b), (T2, c)] =
      [⟨T1, [a, b]⟩, ⟨T2, [c]⟩] ∧
    (∀ (out : List Chapter) (ch : Chapter) (e : String × String),
      e.1 ≠ ch.title → ch.hasContent = true →
      assembleStep (some ch, out) e = (some ⟨e.1, [e.2]⟩, out ++ [ch])) := by
  constructor
  · have hT2 : ¬(T2 = T1) := fun h => hT h.symm
    simp [assembleChapters, assembleStep, hT2, h1, h2]
  · intro out ch e hne hc
    simp [assembleStep, hne, hc]

/-- Witness for the assembler theorem at concrete titles and fragments. -/
theorem chapter_assembler_title_runs_witness :
    assembleChapters [("Ch1", "a"), ("Ch1", "b"), ("Ch2", "c")] =
      [⟨"Ch1", ["a", "b"]⟩, ⟨"Ch2", ["c"]⟩] :=
  (chapter_assembler_title_runs "Ch1" "Ch2" "a" "b" "c"
    (by decide) (by decide) (by decide)).1

/-- C2: the pattern loop returns the result of the first strategy
reporting `found = true` — whatever the later strategies would return —
and reports failure when every strategy reports `found = false`. -/
theorem locator_first_match_wins (doc : Node) (url : String) (ln : Nat) :
    (∀ (ps1 : List ExtractionPattern) (p : ExtractionPattern)
        (ps2 : List ExtractionPattern),
      (∀ q ∈ ps1, (q.extract doc q.selector url ln).2 = false) →
      (p.extract doc p.selector url ln).2 = true →
      extractFirst (ps1 ++ p :: ps2) doc url ln =
        some (p.extract doc p.selector url ln).1) ∧
    (∀ ps : List ExtractionPattern,
      (∀ q ∈ ps, (q.extract doc q.selector url ln).2 = false) →
      extractFirst ps doc url ln = none) := by
  constructor
  · intro ps1 p ps2 hfail hfound
    induction ps1 with
    | nil => simp [extractFirst, hfound]
    | cons q qs ih =>
      have hq : (q.extract doc q.selector url ln).2 = false :=
        hfail q (by simp)
      have hqs : ∀ r ∈ qs, (r.extract doc r.selector url ln).2 = false :=
        fun r hr => hfail r (by simp [hr])
      simp [extractFirst, hq, ih hqs]
  · intro ps hfail
    induction ps with
    | nil => simp [extractFirst]
    | cons q qs ih =>
      have hq : (q.extract doc q.selector url ln).2 = false :=
        hfail q (by simp)
      have hqs : ∀ r ∈ qs, (r.extract doc r.selector url ln).2 = false :=
        fun r hr => hfail r (by simp [hr])
      simp [extractFirst, hq, ih hqs]

/-- A page whose advanced pattern fails but whose fallback succeeds. -/
def fallbackOnlyDoc : Node :=
  .elem "#document" [] [
    .elem "body" [] [
      .elem "div" [("class", "post-body")] [
        .elem "div" [("class", "post-header")] [.text "hdr"],
        .elem "p" [] [.text "story"]]]]

/-- Witness for the locator theorem: on `fallbackOnlyDoc` the advanced
pattern reports failure and the loop returns the fallback's content. -/
theorem locator_first_match_wins_witness :
    extractFirst defaultPatterns fallbackOnlyDoc "u" 0 = some "<p>story</p>" := by
  have h := (locator_first_match_wins fallbackOnlyDoc "u" 0).1
    [advancedPattern] fallbackPattern []
    (by
      intro q hq
      rw [List.mem_singleton] at hq
      subst hq
      decide)
    (by decide)
  exact h.trans (by decide)

/-- C10: `resolveURL` is the identity on absolute (`http://`/`https://`)
sources, and returns the source unchanged whenever parsing of the page
URL or of the source fails. -/
theorem resolveURL_absolute_identity {U : Type}
    (parseUrl : String → Option U) (resolveRef : U → U → String)
    (imgSrc pageURL : String) :
    ((strStartsWith imgSrc "http://" = true ∨ strStartsWith imgSrc "https://" = true) →
      resolveURL parseUrl resolveRef imgSrc pageURL = imgSrc) ∧
    ((parseUrl pageURL = none ∨ parseUrl imgSrc = none) →
      resolveURL parseUrl resolveRef imgSrc pageURL = imgSrc) := by
  constructor
  · intro h
    rcases h with h | h <;> simp [resolveURL, h]
  · intro h
    unfold resolveURL
    by_cases habs : (strStartsWith imgSrc "http://" || strStartsWith imgSrc "https://") = true
    · simp [habs]
    · rcases h with h | h
      · simp [habs, h]
      · simp [habs, h]
        cases parseUrl pageURL <;> simp

/-- Witness for `resolveURL` at a concrete absolute source and a concrete
parse failure. -/
theorem resolveURL_absolute_identity_witness :
    resolveURL (fun _ => (none : Option Unit)) (fun _ _ => "r")
      "https://img.example/a.png" "http://page.example/p" =
      "https://img.example/a.png" ∧
    resolveURL (fun _ => (none : Option Unit)) (fun _ _ => "r")
      "/rel.png" "http://page.example/p" = "/rel.png" := by
  constructor
  · exact (resolveURL_absolute_identity (fun _ => (none : Option Unit))
      (fun _ _ => "r") "https://img.example/a.png" "http://page.example/p").1
      (Or.inr (by decide))
  · exact (resolveURL_absolute_identity (fun _ => (none : Option Unit))
      (fun _ _ => "r") "/rel.png" "http://page.example/p").2 (Or.inl rfl)

/-- C4: when the advanced pattern has found an anchor and a container but
the anchor cannot be relocated inside the cloned container — the selector
matches nothing in the clone, or no enumerated element is structurally
identical to the relocated anchor — the strategy reports `found = false`
instead of returning the container's markup. -/
theorem anchor_relocation_failure_not_found (doc : Node) (tp cp : List Nat)
    (hT : (titlePathsN doc).head? = some tp)
    (hC : containerOf doc tp = some cp)
    (hFail : (titlePathsN (nodeAtD cp doc)).head? = none ∨
      ∃ ctp, (titlePathsN (nodeAtD cp doc)).head? = some ctp ∧
        (findPaths isElem (nodeAtD cp doc)).findIdx?
          (fun p => isSameElement (nodeAtD p (nodeAtD cp doc))
            (nodeAtD ctp (nodeAtD cp doc))) = none) :
    advancedExtract doc = ("", false) := by
  unfold advancedExtract
  rcases hFail with h | ⟨ctp, h1, h2⟩
  · simp only [hT, hC, h]
  · simp only [hT, hC, h1, h2]

/-- A page whose title anchor sits outside the body: the container search
falls through to the body, and the anchor cannot be relocated inside the
cloned body. -/
def titleOutsideBodyDoc : Node :=
  .elem "#document" [] [
    .elem "html" [] [
      .elem "head" [] [
        .elem "h4" [("style", "text-align: center")] [.text "Chapter 1"]],
      .elem "body" [] []]]

/-- Witness for the relocation-failure theorem: on `titleOutsideBodyDoc`
the anchor is found, the body is the container, the clone holds no anchor,
and the strategy reports `found = false`. -/
theorem anchor_relocation_failure_not_found_witness :
    advancedExtract titleOutsideBodyDoc = ("", false) :=
  anchor_relocation_failure_not_found titleOutsideBodyDoc [0, 0, 0] [0, 1]
    (by decide) (by decide) (Or.inl (by decide))

/-- C9: `convertDivsToParagraphs`, a pass absent from the spec's transform
list, turns a div that is not of a skipped boilerplate class, has
non-empty trimmed text and no div/heading/paragraph descendant into a `p`
with the same inner markup, and removes a div whose inner markup is
exactly a lone line break.  (The inequality hypotheses of the conversion
part mirror the earlier line-break test of the code; with goquery's
entity-escaping serializer they are implied by the non-empty-text
hypothesis.) -/
theorem div_to_paragraph_conversion (a : List (String × String))
    (cs : List Node)
    (hskip : divClassSkip (.elem "div" a cs) = false) :
    ((trimS (renderL cs) = "<br>" ∨ trimS (renderL cs) = "<br/>" ∨
        trimS (renderL cs) = "<br />") →
      convertDivsN (.elem "div" a cs) = []) ∧
    (trimS (textL cs) ≠ "" →
      cntL (fun n => isElem n && tagOf n == "div") cs = 0 →
      cntL isHeading cs = 0 →
      cntL (fun n => isElem n && tagOf n == "p") cs = 0 →
      trimS (renderL cs) ≠ "<br>" → trimS (renderL cs) ≠ "<br/>" →
      trimS (renderL cs) ≠ "<br />" →
      convertDivsN (.elem "div" a cs) = [.elem "p" [] cs]) := by
  constructor
  · intro h
    rcases h with h | h | h <;> simp [convertDivsN, hskip, h]
  · intro htext hdiv hhead hp hb1 hb2 hb3
    simp [convertDivsN, hskip, hb1, hb2, hb3, htext, hdiv, hhead, hp]

/-- Witness for the div-conversion theorem: a plain text div is converted
to a paragraph, and a lone-line-break div is removed. -/
theorem div_to_paragraph_conversion_witness :
    convertDivsN (.elem "div" [("id", "x")]
        [.text "hello ", .elem "b" [] [.text "w"]]) =
      [.elem "p" [] [.text "hello ", .elem "b" [] [.text "w"]]] ∧
    convertDivsN (.elem "div" [] [.elem "br" [] []]) = [] := by
  constructor
  · exact (div_to_paragraph_conversion [("id", "x")]
      [.text "hello ", .elem "b" [] [.text "w"]] (by decide)).2
      (by decide) (by decide) (by decide) (by decide)
      (by decide) (by decide) (by decide)
  · exact (div_to_paragraph_conversion [] [.elem "br" [] []] (by decide)).1
      (Or.inr (Or.inl (by decide)))

end Seirei
